import Mathlib

/-! Coordinator / worker matrix multiplication over message passing.

A shallow embedding of `Assignment -4 MPI.c`.  The build-time constants `N`
and `M` and the process count `NUM_PROCESS` are parameters.  Arrays are flat
row-major lists of C `int`s, the way `int a[N][M]` lies in memory; every read
and write is checked and returns a `Fault` when it leaves its array.  A C `int`
is an `Int` reduced to the 32-bit two's-complement range after every
arithmetic operation (signed overflow wraps around).  Row and column indices,
message counts and ranks are natural numbers and are not reduced: they stay
below `2^31` for all arrays of fewer than `2^31` cells.  A process is a
function of its memory and of the messages pending for it; since every receive
of the program names its source, the result of a round does not depend on how
the processes interleave.
-/

namespace MatMul

/-! ## C `int` arithmetic -/

/-- Reduce an integer to the range of a 32-bit two's-complement `int`. -/
def wrapInt (x : Int) : Int := (x + 2147483648) % 4294967296 - 2147483648

/-- The C expression `x + y` on `int`. -/
def addInt (x y : Int) : Int := wrapInt (x + y)

/-- The C expression `x * y` on `int`. -/
def mulInt (x y : Int) : Int := wrapInt (x * y)

/-! ## Faults, messages, memory -/

/-- The ways a process can stop abnormally. -/
inductive Fault where
  /-- integer division or remainder by zero -/
  | divByZero
  /-- an array access outside the declared array -/
  | outOfBounds
  /-- a receive that no pending message satisfies, or that is too small for it -/
  | badRecv
  deriving DecidableEq

/-- Line 8: `#define master_tag 1`. -/
def master_tag : Nat := 1

/-- Line 9: `#define worker_tag 2`. -/
def worker_tag : Nat := 2

/-- A point-to-point message of `MPI_INT`s. -/
structure Msg where
  source : Nat
  dest : Nat
  tag : Nat
  data : List Int
  deriving DecidableEq

/-- The variables of line 14-19 that hold data: the three arrays and the two
scalars that travel in messages.  The program never initialises them, so a
process starts with arbitrary contents. -/
structure Mem where
  a : List Int
  b : List Int
  c : List Int
  offset : Int
  rows : Int
  deriving DecidableEq

/-- Read `buf[i][j]` of an array declared `int buf[R][C]`. -/
def get2 (buf : List Int) (R C i j : Nat) : Except Fault Int :=
  if i < R ∧ j < C then
    match buf[i * C + j]? with
    | some v => .ok v
    | none => .error .outOfBounds
  else .error .outOfBounds

/-- Write `buf[i][j] = v` of an array declared `int buf[R][C]`. -/
def set2 (buf : List Int) (R C i j : Nat) (v : Int) : Except Fault (List Int) :=
  if i < R ∧ j < C ∧ i * C + j < buf.length then .ok (buf.set (i * C + j) v)
  else .error .outOfBounds

/-- The `count` integers that `MPI_Send(buf + pos, count, MPI_INT, ...)` reads. -/
def sendFrom (buf : List Int) (pos count : Nat) : Except Fault (List Int) :=
  if pos + count ≤ buf.length then .ok ((buf.drop pos).take count)
  else .error .outOfBounds

/-- Copy `data` over `buf` starting at `pos`. -/
def blit (buf : List Int) (pos : Nat) (data : List Int) : List Int :=
  buf.take pos ++ data ++ buf.drop (pos + data.length)

/-- The call `MPI_Recv(buf + pos, count, MPI_INT, source, tag, ...)` on the
queue `q` of messages pending from `source`: the oldest message is taken, it
must carry `tag` and at most `count` integers, and the `count` integers of the
receive buffer must lie inside `buf`. -/
def recvInto (q : List Msg) (source tag : Nat) (buf : List Int) (pos count : Nat) :
    Except Fault (List Int × List Msg) :=
  match q with
  | [] => .error .badRecv
  | m :: rest =>
    if m.source = source ∧ m.tag = tag ∧ m.data.length ≤ count then
      if pos + count ≤ buf.length then .ok (blit buf pos m.data, rest)
      else .error .outOfBounds
    else .error .badRecv

/-- The call `MPI_Recv(&x, 1, MPI_INT, source, tag, ...)` on a scalar `x` whose
value before the call is `old`. -/
def recvInt (q : List Msg) (source tag : Nat) (old : Int) : Except Fault (Int × List Msg) :=
  match recvInto q source tag [old] 0 1 with
  | .ok (buf, rest) => .ok (buf.headD old, rest)
  | .error f => .error f

/-! ## Coordinator: input generation (lines 30-36) -/

/-- Line 32, `a[i][j] = j + 1`, inside the loop of line 31. -/
def genARow (N M i : Nat) (a : List Int) : Except Fault (List Int) :=
  (List.range M).foldlM (fun buf j => set2 buf N M i j (addInt j 1)) a

/-- Lines 30-32. -/
def genA (N M : Nat) (a : List Int) : Except Fault (List Int) :=
  (List.range N).foldlM (fun buf i => genARow N M i buf) a

/-- Line 36, `b[i][j] = j + 1`, inside the loop of line 35. -/
def genBRow (N M i : Nat) (b : List Int) : Except Fault (List Int) :=
  (List.range N).foldlM (fun buf j => set2 buf M N i j (addInt j 1)) b

/-- Lines 34-36. -/
def genB (N M : Nat) (b : List Int) : Except Fault (List Int) :=
  (List.range M).foldlM (fun buf i => genBRow N M i buf) b

/-! ## Coordinator: partition and scatter (lines 53-67) -/

/-- Line 58: `rows = (j <= remainder) ? portion + 1 : portion`, with
`portion = N / W` and `remainder = N % W` of lines 53-54. -/
def rowsOf (N W j : Nat) : Nat := if j ≤ N % W then N / W + 1 else N / W

/-- The state of the loop of line 57: the variable `offset` and the messages
sent so far. -/
structure Scatter where
  offset : Nat
  rows : Int
  sent : List Msg
  deriving DecidableEq

/-- One iteration of the loop of lines 57-67, for worker `j`. -/
def scatterStep (N M W : Nat) (a b : List Int) (st : Scatter) (j : Nat) :
    Except Fault Scatter := do
  let rows := rowsOf N W j
  let blk ← sendFrom a (st.offset * M) (rows * M)
  let bb ← sendFrom b 0 (M * N)
  pure
    { offset := st.offset + rows
      rows := rows
      sent := st.sent ++
        [ ⟨0, j, master_tag, [(st.offset : Int)]⟩,
          ⟨0, j, master_tag, [(rows : Int)]⟩,
          ⟨0, j, master_tag, blk⟩,
          ⟨0, j, master_tag, bb⟩ ] }

/-- Lines 53-67 for `P = NUM_PROCESS` processes (`P >= 1`: rank 0 exists): the
divisions of lines 53-54 fault when `NUM_PROCESS - 1` is zero, otherwise
`offset = 0` and the loop runs for `j = 1 .. P - 1`. -/
def scatter (N M P : Nat) (mem : Mem) : Except Fault Scatter :=
  if P - 1 = 0 then .error .divByZero
  else (List.range' 1 (P - 1)).foldlM (scatterStep N M (P - 1) mem.a mem.b)
    { offset := 0, rows := mem.rows, sent := [] }

/-- The loop of lines 57-67 with the sends left out: the `(offset, rows)` pair
of every worker, in rank order, and the value of `offset` after the loop. -/
def partitionLoop (N W : Nat) : Nat × List (Nat × Nat) :=
  (List.range' 1 W).foldl
    (fun st j => (st.1 + rowsOf N W j, st.2 ++ [(st.1, rowsOf N W j)])) (0, [])

/-- The partition descriptor: the `(offset, rows)` pair of workers `1 .. W`. -/
def assignments (N W : Nat) : List (Nat × Nat) := (partitionLoop N W).2

/-- The messages of `sent` addressed to rank `r`, oldest first. -/
def inboxOf (sent : List Msg) (r : Nat) : List Msg := sent.filter (fun m => m.dest = r)

/-! ## Worker (lines 91-107) -/

/-- Line 102, `c[i][k] += a[i][j] * b[j][k]`; the second component counts the
multiply-accumulate operations performed. -/
def macStep (N M : Nat) (a b : List Int) (i k : Nat) (st : List Int × Nat) (j : Nat) :
    Except Fault (List Int × Nat) := do
  let x ← get2 a N M i j
  let y ← get2 b M N j k
  let z ← get2 st.1 N N i k
  let c ← set2 st.1 N N i k (addInt z (mulInt x y))
  pure (c, st.2 + 1)

/-- Lines 99-103: `c[i][k] = 0.0` and the loop over `j`. -/
def cellStep (N M : Nat) (a b : List Int) (k : Nat) (st : List Int × Nat) (i : Nat) :
    Except Fault (List Int × Nat) := do
  let c ← set2 st.1 N N i k 0
  (List.range M).foldlM (macStep N M a b i k) (c, st.2)

/-- Line 98: the loop over `i` for one column `k`. -/
def colStep (N M rows : Nat) (a b : List Int) (st : List Int × Nat) (k : Nat) :
    Except Fault (List Int × Nat) :=
  (List.range rows).foldlM (cellStep N M a b k) st

/-- Lines 97-103: the multiply kernel on the worker's arrays; returns the array
`c` and the number of multiply-accumulate operations performed. -/
def kernel (N M rows : Nat) (a b c : List Int) : Except Fault (List Int × Nat) :=
  (List.range N).foldlM (colStep N M rows a b) (c, 0)

/-- What a worker leaves behind: the messages it sent and the number of
multiply-accumulate operations it performed. -/
structure WorkerRun where
  sent : List Msg
  macs : Nat
  deriving DecidableEq

/-- Lines 92-106 on the process of rank `rank` with initial memory `mem` and
the queue `inbox` of messages pending from rank 0.  A negative `rows` makes the
count of line 94 negative, which the message layer rejects. -/
def worker (N M rank : Nat) (mem : Mem) (inbox : List Msg) : Except Fault WorkerRun := do
  let (offset, q) ← recvInt inbox 0 master_tag mem.offset
  let (rows, q) ← recvInt q 0 master_tag mem.rows
  if rows < 0 then .error .badRecv
  else
    let (a, q) ← recvInto q 0 master_tag mem.a 0 (rows.toNat * M)
    let (b, _) ← recvInto q 0 master_tag mem.b 0 (M * N)
    let (c, macs) ← kernel N M rows.toNat a b mem.c
    let blk ← sendFrom c 0 (rows.toNat * N)
    pure
      { sent :=
          [ ⟨rank, 0, worker_tag, [offset]⟩,
            ⟨rank, 0, worker_tag, [rows]⟩,
            ⟨rank, 0, worker_tag, blk⟩ ]
        macs := macs }

/-- The messages pending at rank 0 from a worker: what it sent, or nothing when
it stopped with a fault. -/
def outboxOf (r : Except Fault WorkerRun) : List Msg :=
  match r with
  | .ok w => w.sent
  | .error _ => []

/-! ## Coordinator: gather (lines 70-75) -/

/-- The state of the loop of line 70: the variables `offset` and `rows`, the
array `c`, and the receives performed so far as `(source, tag, count)`. -/
structure Gather where
  offset : Int
  rows : Int
  c : List Int
  recvs : List (Nat × Nat × Nat)
  deriving DecidableEq

/-- One iteration of the loop of lines 70-75, for worker `i`, whose pending
messages are `outbox i`.  A negative `offset` or `rows` puts line 74 outside
the array `c`. -/
def gatherStep (N : Nat) (outbox : Nat → List Msg) (st : Gather) (i : Nat) :
    Except Fault Gather := do
  let (offset, q) ← recvInt (outbox i) i worker_tag st.offset
  let (rows, q) ← recvInt q i worker_tag st.rows
  if offset < 0 ∨ rows < 0 then .error .outOfBounds
  else
    let (c, _) ← recvInto q i worker_tag st.c (offset.toNat * N) (rows.toNat * N)
    pure
      { offset := offset
        rows := rows
        c := c
        recvs := st.recvs ++
          [(i, worker_tag, 1), (i, worker_tag, 1), (i, worker_tag, rows.toNat * N)] }

/-- The gather loop run over the workers in the order `order`. -/
def gatherIn (N : Nat) (order : List Nat) (outbox : Nat → List Msg) (st : Gather) :
    Except Fault Gather :=
  order.foldlM (gatherStep N outbox) st

/-- Lines 70-75: the gather loop, `i = 1 .. P - 1`. -/
def gather (N P : Nat) (outbox : Nat → List Msg) (st : Gather) : Except Fault Gather :=
  gatherIn N (List.range' 1 (P - 1)) outbox st

/-! ## One round -/

/-- The replies pending at rank 0 after the scatter `sent`: worker `r` runs
lines 92-106 on the messages addressed to it, from initial memory `wmem r`. -/
def replies (N M : Nat) (wmem : Nat → Mem) (sent : List Msg) (r : Nat) : List Msg :=
  outboxOf (worker N M r (wmem r) (inboxOf sent r))

/-- Lines 53-75 together with the workers: partition and scatter from the
coordinator memory `mem` (whose `a` and `b` hold the inputs), every worker's
lines 92-106, then gather in the order `order`. -/
def roundIn (N M P : Nat) (order : List Nat) (mem : Mem) (wmem : Nat → Mem) :
    Except Fault Gather := do
  let sc ← scatter N M P mem
  gatherIn N order (replies N M wmem sc.sent)
    { offset := sc.offset, rows := sc.rows, c := mem.c, recvs := [] }

/-- One round as the program runs it: gather in rank order `1 .. P - 1`. -/
def round (N M P : Nat) (mem : Mem) (wmem : Nat → Mem) : Except Fault Gather :=
  roundIn N M P (List.range' 1 (P - 1)) mem wmem

/-- The array `c` of the coordinator after one round. -/
def assembled (N M P : Nat) (mem : Mem) (wmem : Nat → Mem) : Except Fault (List Int) :=
  match round N M P mem wmem with
  | .ok g => .ok g.c
  | .error f => .error f

/-! ## The coordinator's sequence of actions (lines 27-88) -/

/-- The observable actions of rank 0. -/
inductive Event where
  /-- a call of `MPI_Wtime` -/
  | wtime
  /-- the loops of lines 30-32 -/
  | generateA
  /-- the loops of lines 34-36 -/
  | generateB
  /-- lines 38-43 -/
  | printA
  /-- lines 46-51 -/
  | printB
  /-- lines 53-55 -/
  | partition
  /-- an `MPI_Send` of `count` integers -/
  | send (dest tag count : Nat)
  /-- an `MPI_Recv` of at most `count` integers -/
  | recv (source tag count : Nat)
  /-- lines 77-83 -/
  | printC
  /-- line 87 -/
  | printElapsed
  deriving DecidableEq

/-- A run of rank 0: the actions it completed and either the array `c` it
printed or the fault that stopped it. -/
structure Run where
  trace : List Event
  result : Except Fault (List Int)

/-- Lines 27-88.  A run stopped by a fault lists the actions completed before
the statement group that faulted. -/
def coordinator (N M P : Nat) (mem : Mem) (wmem : Nat → Mem) : Run :=
  match genA N M mem.a with
  | .error f => ⟨[.wtime], .error f⟩
  | .ok a =>
    match genB N M mem.b with
    | .error f => ⟨[.wtime, .generateA], .error f⟩
    | .ok b =>
      let pre : List Event := [.wtime, .generateA, .generateB, .printA, .printB]
      let mem1 : Mem := { mem with a := a, b := b }
      match scatter N M P mem1 with
      | .error f => ⟨pre, .error f⟩
      | .ok sc =>
        let sends := sc.sent.map (fun m => Event.send m.dest m.tag m.data.length)
        match gather N P (replies N M wmem sc.sent)
            { offset := sc.offset, rows := sc.rows, c := mem.c, recvs := [] } with
        | .error f => ⟨pre ++ [.partition] ++ sends, .error f⟩
        | .ok g =>
          ⟨pre ++ [.partition] ++ sends
              ++ g.recvs.map (fun r => Event.recv r.1 r.2.1 r.2.2)
              ++ [.printC, .wtime, .printElapsed],
            .ok g.c⟩

/-! ## The matrix product the specification asks for -/

/-- Entry `(i, k)` of the product of `a` (`N x M`) and `b` (`M x N`) over the
integers: the sum over `j < M` of `a[i][j] * b[j][k]`. -/
def matProd (N M : Nat) (a b : List Int) (i k : Nat) : Int :=
  ((List.range M).map (fun j => a.getD (i * M + j) 0 * b.getD (j * N + k) 0)).sum

/-! ## Auxiliary definitions used in the statements and proofs -/

/-- The value of `offset` after the iterations of the loop of line 57 for
workers `1 .. n`: the running sum of their row counts. -/
def offsetAfter (N W : Nat) : Nat → Nat
  | 0 => 0
  | n + 1 => offsetAfter N W n + rowsOf N W (n + 1)

/-- The four messages of lines 62-65 for worker `j`, written with the running
sum `offsetAfter`. -/
def scatterMsgs (N M W : Nat) (a b : List Int) (j : Nat) : List Msg :=
  [ ⟨0, j, master_tag, [(offsetAfter N W (j - 1) : Int)]⟩,
    ⟨0, j, master_tag, [(rowsOf N W j : Int)]⟩,
    ⟨0, j, master_tag, (a.drop (offsetAfter N W (j - 1) * M)).take (rowsOf N W j * M)⟩,
    ⟨0, j, master_tag, b⟩ ]

/-- The arrays of a process have the sizes declared on line 19:
`int a[N][M], b[M][N], c[N][N]`. -/
def Mem.Sized (N M : Nat) (mem : Mem) : Prop :=
  mem.a.length = N * M ∧ mem.b.length = M * N ∧ mem.c.length = N * N

instance (N M : Nat) (mem : Mem) : Decidable (mem.Sized N M) := by
  unfold Mem.Sized; infer_instance

/-- The three messages of lines 104-106 from worker `rank`. -/
def replyMsgs (rank : Nat) (offset rows : Int) (blk : List Int) : List Msg :=
  [ ⟨rank, 0, worker_tag, [offset]⟩,
    ⟨rank, 0, worker_tag, [rows]⟩,
    ⟨rank, 0, worker_tag, blk⟩ ]

/-- The `N x N` array of the products of `a` and `b`, each reduced to a C
`int`, in row-major order. -/
def prodFlat (N M : Nat) (a b : List Int) : List Int :=
  (List.range (N * N)).map (fun p => wrapInt (matProd N M a b (p / N) (p % N)))

/-- The receives of lines 72-74 from worker `r`, as `(source, tag, count)`. -/
def recvsOf (N W r : Nat) : List (Nat × Nat × Nat) :=
  [(r, worker_tag, 1), (r, worker_tag, 1), (r, worker_tag, rowsOf N W r * N)]

/-- The events of the scatter to worker `j`. -/
def sendsOf (N M W j : Nat) : List Event :=
  [ .send j master_tag 1, .send j master_tag 1,
    .send j master_tag (rowsOf N W j * M), .send j master_tag (M * N) ]

instance instDecEqExcept {ε α : Type} [DecidableEq ε] [DecidableEq α] :
    DecidableEq (Except ε α) := by
  intro x y
  cases x with
  | error e =>
    cases y with
    | error e' =>
      by_cases h : e = e'
      · exact isTrue (by rw [h])
      · exact isFalse (fun h' => h (Except.error.inj h'))
    | ok _ => exact isFalse (fun h => Except.noConfusion h)
  | ok a =>
    cases y with
    | error _ => exact isFalse (fun h => Except.noConfusion h)
    | ok a' =>
      by_cases h : a = a'
      · exact isTrue (by rw [h])
      · exact isFalse (fun h' => h (Except.ok.inj h'))

/-- A process memory of the declared sizes with every cell holding `g`. -/
def Mem.fill (N M : Nat) (g : Int) : Mem :=
  ⟨List.replicate (N * M) g, List.replicate (M * N) g, List.replicate (N * N) g, g, g⟩

/-- A coordinator memory holding the inputs `a` and `b`, with `g` in every
cell the program has not written. -/
def Mem.inputs (N : Nat) (a b : List Int) (g : Int) : Mem :=
  ⟨a, b, List.replicate (N * N) g, g, g⟩

/-- An action is an `MPI_Send`. -/
def Event.isSend : Event → Bool
  | .send _ _ _ => true
  | _ => false

/-- An action is an `MPI_Recv`. -/
def Event.isRecv : Event → Bool
  | .recv _ _ _ => true
  | _ => false

/-- The communication actions of a sequence of actions, in order. -/
def commActions (t : List Event) : List Event :=
  t.filter (fun e => e.isSend || e.isRecv)

/-- The events of the gather from worker `r` (lines 72-74). -/
def recvEventsOf (N W r : Nat) : List Event :=
  [ .recv r worker_tag 1, .recv r worker_tag 1, .recv r worker_tag (rowsOf N W r * N) ]

/-! ## Lemmas: sequencing of fallible steps -/

@[simp] theorem ok_bind {ε α β : Type} (x : α) (f : α → Except ε β) :
    (Except.ok x >>= f) = f x := rfl

@[simp] theorem error_bind {ε α β : Type} (e : ε) (f : α → Except ε β) :
    ((Except.error e : Except ε α) >>= f) = Except.error e := rfl

@[simp] theorem pure_eq_ok {ε α : Type} (x : α) : (pure x : Except ε α) = Except.ok x := rfl

/-- A counted loop run one iteration longer. -/
theorem foldlM_range_succ {σ : Type} (f : σ → Nat → Except Fault σ) (s : σ) (n : Nat) :
    (List.range (n + 1)).foldlM f s = ((List.range n).foldlM f s >>= fun t => f t n) := by
  rw [List.range_succ, List.foldlM_append]
  congr 1
  funext t
  rw [List.foldlM_cons]
  cases f t n <;> rfl

/-- A loop from 1 run one iteration longer. -/
theorem foldlM_range'_succ {σ : Type} (f : σ → Nat → Except Fault σ) (s : σ) (n : Nat) :
    (List.range' 1 (n + 1)).foldlM f s
      = ((List.range' 1 n).foldlM f s >>= fun t => f t (n + 1)) := by
  rw [List.range'_concat, List.foldlM_append]
  congr 1
  funext t
  rw [List.foldlM_cons, Nat.one_mul, Nat.add_comm 1 n]
  cases f t (n + 1) <;> rfl

/-! ## Lemmas: C `int` arithmetic -/

theorem wrapInt_of_range {x : Int} (h1 : -2147483648 ≤ x) (h2 : x < 2147483648) :
    wrapInt x = x := by
  unfold wrapInt
  omega

theorem wrapInt_emod (x : Int) : wrapInt x % 4294967296 = x % 4294967296 := by
  unfold wrapInt
  omega

theorem wrapInt_congr {x y : Int} (h : x % 4294967296 = y % 4294967296) :
    wrapInt x = wrapInt y := by
  unfold wrapInt
  omega

/-- The accumulation of line 102 agrees with exact arithmetic modulo `2^32`. -/
theorem addInt_mulInt (s x y : Int) :
    addInt (wrapInt s) (mulInt x y) = wrapInt (s + x * y) := by
  unfold addInt mulInt
  apply wrapInt_congr
  rw [Int.add_emod, wrapInt_emod, wrapInt_emod, ← Int.add_emod]

/-! ## Lemmas: row-major indexing -/

theorem idx_lt {R C i j : Nat} (hi : i < R) (hj : j < C) : i * C + j < R * C := by
  have h : (i + 1) * C ≤ R * C := Nat.mul_le_mul_right C hi
  rw [Nat.add_mul, Nat.one_mul] at h
  omega

theorem idx_inj {C i j i' j' : Nat} (hj : j < C) (hj' : j' < C)
    (h : i * C + j = i' * C + j') : i = i' ∧ j = j' := by
  have hi : i = i' := by
    rcases Nat.lt_trichotomy i i' with hlt | heq | hgt
    · have h1 : (i + 1) * C ≤ i' * C := Nat.mul_le_mul_right C hlt
      rw [Nat.add_mul, Nat.one_mul] at h1
      omega
    · exact heq
    · have h1 : (i' + 1) * C ≤ i * C := Nat.mul_le_mul_right C hgt
      rw [Nat.add_mul, Nat.one_mul] at h1
      omega
  subst hi
  exact ⟨rfl, by omega⟩

theorem idx_div {C i j : Nat} (hj : j < C) : (i * C + j) / C = i := by
  have hC : 0 < C := by omega
  rw [Nat.mul_comm, Nat.mul_add_div hC, Nat.div_eq_of_lt hj, Nat.add_zero]

theorem idx_mod {C i j : Nat} (hj : j < C) : (i * C + j) % C = j := by
  rw [Nat.mul_comm, Nat.mul_add_mod, Nat.mod_eq_of_lt hj]

/-- Two `R x C` arrays with the same entries are the same array. -/
theorem ext2 {R C : Nat} {l₁ l₂ : List Int} (h1 : l₁.length = R * C) (h2 : l₂.length = R * C)
    (h : ∀ i j, i < R → j < C → l₁[i * C + j]? = l₂[i * C + j]?) : l₁ = l₂ := by
  apply List.ext_getElem?
  intro p
  by_cases hp : p < R * C
  · have hC : 0 < C := by
      rcases Nat.eq_zero_or_pos C with h0 | h0
      · subst h0; simp at hp
      · exact h0
    have hmod : p % C < C := Nat.mod_lt _ hC
    have hdiv : p / C < R := by
      rw [Nat.div_lt_iff_lt_mul hC]; exact hp
    have := h (p / C) (p % C) hdiv hmod
    rwa [Nat.div_add_mod' p C] at this
  · rw [List.getElem?_eq_none (by omega), List.getElem?_eq_none (by omega)]

/-! ## Lemmas: checked array accesses -/

theorem length_blit {buf data : List Int} {pos : Nat} (h : pos + data.length ≤ buf.length) :
    (blit buf pos data).length = buf.length := by
  simp only [blit, List.length_append, List.length_take, List.length_drop]
  omega

theorem getElem?_blit {buf data : List Int} {pos : Nat} (h : pos + data.length ≤ buf.length)
    (p : Nat) :
    (blit buf pos data)[p]? =
      if pos ≤ p ∧ p < pos + data.length then data[p - pos]? else buf[p]? := by
  have hlen : (buf.take pos).length = pos := by
    rw [List.length_take]; omega
  unfold blit
  by_cases h1 : p < pos
  · rw [if_neg (by omega), List.append_assoc, List.getElem?_append_left (by omega),
      List.getElem?_take_of_lt h1]
  · by_cases h2 : p < pos + data.length
    · rw [if_pos ⟨by omega, h2⟩, List.append_assoc, List.getElem?_append_right (by omega),
        List.getElem?_append_left (by omega), hlen]
    · rw [if_neg (by omega), List.getElem?_append_right
        (by rw [List.length_append]; omega), List.length_append, hlen, List.getElem?_drop]
      congr 1
      omega

theorem get2_ok {buf : List Int} {R C i j : Nat} {v : Int} (hi : i < R) (hj : j < C)
    (hv : buf[i * C + j]? = some v) : get2 buf R C i j = .ok v := by
  simp [get2, hi, hj, hv]

theorem get2_getD {buf : List Int} {R C i j : Nat} (hi : i < R) (hj : j < C)
    (hlen : buf.length = R * C) : get2 buf R C i j = .ok (buf.getD (i * C + j) 0) := by
  have hlt : i * C + j < buf.length := hlen ▸ idx_lt hi hj
  apply get2_ok hi hj
  rw [List.getD_eq_getElem?_getD, List.getElem?_eq_getElem hlt]
  rfl

theorem set2_ok {buf : List Int} {R C i j : Nat} (v : Int) (hi : i < R) (hj : j < C)
    (hlen : buf.length = R * C) : set2 buf R C i j v = .ok (buf.set (i * C + j) v) := by
  have hlt : i * C + j < buf.length := hlen ▸ idx_lt hi hj
  simp [set2, hi, hj, hlt]

theorem sendFrom_ok {buf : List Int} {pos count : Nat} (h : pos + count ≤ buf.length) :
    sendFrom buf pos count = .ok ((buf.drop pos).take count) := by
  simp [sendFrom, h]

theorem sendFrom_all {buf : List Int} {n : Nat} (h : buf.length = n) :
    sendFrom buf 0 n = .ok buf := by
  rw [sendFrom_ok (by omega), List.drop_zero, ← h, List.take_length]

theorem recvInto_ok {m : Msg} {buf : List Int} {q : List Msg} {source tag pos count : Nat}
    (hs : m.source = source) (ht : m.tag = tag) (hc : m.data.length ≤ count)
    (hb : pos + count ≤ buf.length) :
    recvInto (m :: q) source tag buf pos count = .ok (blit buf pos m.data, q) := by
  simp [recvInto, hs, ht, hc, hb]

theorem recvInt_ok {q : List Msg} {source dest tag : Nat} (v old : Int) :
    recvInt (⟨source, dest, tag, [v]⟩ :: q) source tag old = .ok (v, q) := by
  simp [recvInt, recvInto, blit]

/-! ## Lemmas: the multiply kernel -/

theorem macLoop_ok {N M : Nat} {a b c0 : List Int} {i k : Nat} (m : Nat)
    (ha : a.length = N * M) (hb : b.length = M * N) (hc : c0.length = N * N)
    (hi : i < N) (hk : k < N) (n : Nat) (hn : n ≤ M) :
    (List.range n).foldlM (macStep N M a b i k) (c0.set (i * N + k) 0, m)
      = .ok (c0.set (i * N + k) (wrapInt
          ((List.range n).map (fun j => a.getD (i * M + j) 0 * b.getD (j * N + k) 0)).sum),
          m + n) := by
  induction n with
  | zero => rfl
  | succ n ih =>
    have hlt : i * N + k < c0.length := hc ▸ idx_lt hi hk
    rw [foldlM_range_succ, ih (by omega), ok_bind]
    unfold macStep
    rw [get2_getD hi (by omega) ha, ok_bind, get2_getD (by omega) hk hb, ok_bind]
    simp only
    rw [get2_ok hi hk (List.getElem?_set_self (by simpa using hlt)), ok_bind,
      set2_ok _ hi hk (by simpa using hc), ok_bind, List.set_set, addInt_mulInt,
      List.sum_range_succ]
    rfl

theorem cellStep_ok {N M : Nat} {a b c0 : List Int} {i k : Nat} (m : Nat)
    (ha : a.length = N * M) (hb : b.length = M * N) (hc : c0.length = N * N)
    (hi : i < N) (hk : k < N) :
    cellStep N M a b k (c0, m) i
      = .ok (c0.set (i * N + k) (wrapInt (matProd N M a b i k)), m + M) := by
  unfold cellStep
  rw [set2_ok _ hi hk hc, ok_bind]
  exact macLoop_ok m ha hb hc hi hk M (Nat.le_refl M)

theorem colLoop_ok {N M : Nat} {a b : List Int} {k : Nat}
    (ha : a.length = N * M) (hb : b.length = M * N) (hk : k < N) (n : Nat) (hn : n ≤ N)
    (c0 : List Int) (m : Nat) (hc : c0.length = N * N) :
    ∃ c0', (List.range n).foldlM (cellStep N M a b k) (c0, m) = .ok (c0', m + n * M)
      ∧ c0'.length = N * N
      ∧ ∀ i' k', i' < N → k' < N → c0'[i' * N + k']? =
          if i' < n ∧ k' = k then some (wrapInt (matProd N M a b i' k)) else c0[i' * N + k']? := by
  induction n with
  | zero => exact ⟨c0, by simp [List.range_zero, List.foldlM_nil], hc, by simp⟩
  | succ n ih =>
    obtain ⟨c1, h1, hl1, hp1⟩ := ih (by omega)
    refine ⟨c1.set (n * N + k) (wrapInt (matProd N M a b n k)), ?_, by simpa using hl1, ?_⟩
    · rw [foldlM_range_succ, h1, ok_bind, cellStep_ok _ ha hb hl1 (by omega) hk]
      congr 2
      rw [Nat.succ_mul]; omega
    · intro i' k' hi' hk'
      have hlt : n * N + k < c1.length := hl1 ▸ idx_lt (by omega) hk
      rw [List.getElem?_set]
      by_cases heq : n * N + k = i' * N + k'
      · obtain ⟨e1, e2⟩ := idx_inj hk hk' heq
        subst e1 e2
        simp [hlt]
      · rw [if_neg heq, hp1 i' k' hi' hk']
        by_cases hik : i' < n ∧ k' = k
        · rw [if_pos hik, if_pos ⟨by omega, hik.2⟩]
        · rw [if_neg hik, if_neg]
          rintro ⟨h1', h2'⟩
          have : i' = n := by
            by_contra hne
            exact hik ⟨by omega, h2'⟩
          subst this h2'
          exact heq rfl

theorem kernelLoop_ok {N M rows : Nat} {a b : List Int}
    (ha : a.length = N * M) (hb : b.length = M * N) (hr : rows ≤ N) (n : Nat) (hn : n ≤ N)
    (c0 : List Int) (m : Nat) (hc : c0.length = N * N) :
    ∃ c0', (List.range n).foldlM (colStep N M rows a b) (c0, m) = .ok (c0', m + n * (rows * M))
      ∧ c0'.length = N * N
      ∧ ∀ i' k', i' < N → k' < N → c0'[i' * N + k']? =
          if i' < rows ∧ k' < n then some (wrapInt (matProd N M a b i' k'))
          else c0[i' * N + k']? := by
  induction n with
  | zero => exact ⟨c0, by simp [List.range_zero, List.foldlM_nil], hc, by simp⟩
  | succ n ih =>
    obtain ⟨c1, h1, hl1, hp1⟩ := ih (by omega)
    obtain ⟨c2, h2, hl2, hp2⟩ := colLoop_ok ha hb (show n < N by omega) rows hr c1
      (m + n * (rows * M)) hl1
    refine ⟨c2, ?_, hl2, ?_⟩
    · rw [foldlM_range_succ, h1, ok_bind]
      unfold colStep
      rw [h2]
      congr 2
      rw [Nat.succ_mul]; omega
    · intro i' k' hi' hk'
      rw [hp2 i' k' hi' hk', hp1 i' k' hi' hk']
      by_cases hA : i' < rows ∧ k' = n
      · rw [if_pos hA, if_pos ⟨hA.1, by omega⟩, hA.2]
      · rw [if_neg hA]
        by_cases hB : i' < rows ∧ k' < n
        · rw [if_pos hB, if_pos ⟨hB.1, by omega⟩]
        · rw [if_neg hB, if_neg]
          rintro ⟨h1', h2'⟩
          by_cases hkn : k' = n
          · exact hA ⟨h1', hkn⟩
          · exact hB ⟨h1', by omega⟩

/-- The kernel never leaves its arrays; it performs `N * rows * M`
multiply-accumulates, fills the first `rows` rows of `c` with the wrapped
products and leaves the other rows as they were. -/
theorem kernel_ok {N M : Nat} (rows : Nat) {a b c0 : List Int}
    (ha : a.length = N * M) (hb : b.length = M * N) (hc : c0.length = N * N) (hr : rows ≤ N) :
    ∃ c0', kernel N M rows a b c0 = .ok (c0', N * (rows * M))
      ∧ c0'.length = N * N
      ∧ ∀ i k, i < N → k < N → c0'[i * N + k]? =
          if i < rows then some (wrapInt (matProd N M a b i k)) else c0[i * N + k]? := by
  obtain ⟨c0', h, hl, hp⟩ := kernelLoop_ok ha hb hr N (Nat.le_refl N) c0 0 hc
  refine ⟨c0', by simpa [kernel] using h, hl, ?_⟩
  intro i k hi hk
  rw [hp i k hi hk]
  by_cases h1 : i < rows
  · rw [if_pos ⟨h1, hk⟩, if_pos h1]
  · rw [if_neg (fun h => h1 h.1), if_neg h1]

/-! ## Lemmas: the partition -/

theorem offsetAfter_closed (N W n : Nat) :
    offsetAfter N W n = n * (N / W) + min n (N % W) := by
  induction n with
  | zero => simp [offsetAfter]
  | succ n ih =>
    rw [offsetAfter, ih, rowsOf, Nat.succ_mul]
    split <;> omega

theorem offsetAfter_all (N W : Nat) (hW : 1 ≤ W) : offsetAfter N W W = N := by
  rw [offsetAfter_closed]
  have h1 : N % W < W := Nat.mod_lt _ (by omega)
  have h2 := Nat.div_add_mod N W
  rw [Nat.min_eq_right (by omega)]
  exact h2

theorem offsetAfter_mono (N W : Nat) {m n : Nat} (h : m ≤ n) :
    offsetAfter N W m ≤ offsetAfter N W n := by
  induction n with
  | zero =>
    have : m = 0 := by omega
    subst this; exact Nat.le_refl _
  | succ n ih =>
    rcases Nat.eq_or_lt_of_le h with heq | hlt
    · subst heq; exact Nat.le_refl _
    · have := ih (by omega)
      rw [offsetAfter]; omega

theorem offsetAfter_le (N W : Nat) {n : Nat} (hn : n ≤ W) (hW : 1 ≤ W) :
    offsetAfter N W n ≤ N := by
  have := offsetAfter_mono N W hn
  rwa [offsetAfter_all N W hW] at this

/-- The row range of worker `j` ends inside the matrix. -/
theorem range_le (N W : Nat) {j : Nat} (h1 : 1 ≤ j) (hj : j ≤ W) :
    offsetAfter N W (j - 1) + rowsOf N W j ≤ N := by
  have h := offsetAfter_le N W hj (by omega)
  obtain ⟨n, rfl⟩ : ∃ n, j = n + 1 := ⟨j - 1, by omega⟩
  rw [offsetAfter] at h
  simpa using h

/-- Every row belongs to the range of some worker. -/
theorem row_covered (N W : Nat) (hW : 1 ≤ W) {i : Nat} (hi : i < N) :
    ∃ j, 1 ≤ j ∧ j ≤ W ∧ offsetAfter N W (j - 1) ≤ i
      ∧ i < offsetAfter N W (j - 1) + rowsOf N W j := by
  have key : ∀ n, i < offsetAfter N W n →
      ∃ j, 1 ≤ j ∧ j ≤ n ∧ offsetAfter N W (j - 1) ≤ i
        ∧ i < offsetAfter N W (j - 1) + rowsOf N W j := by
    intro n
    induction n with
    | zero => intro h; simp [offsetAfter] at h
    | succ n ih =>
      intro h
      by_cases hlt : i < offsetAfter N W n
      · obtain ⟨j, h1, h2, h3, h4⟩ := ih hlt
        exact ⟨j, h1, by omega, h3, h4⟩
      · refine ⟨n + 1, by omega, Nat.le_refl _, ?_, ?_⟩
        · simpa using Nat.le_of_not_lt hlt
        · simpa [offsetAfter] using h
  exact key W (by rw [offsetAfter_all N W hW]; exact hi)

theorem partitionLoop_fold (N W n : Nat) :
    (List.range' 1 n).foldl
        (fun st j => (st.1 + rowsOf N W j, st.2 ++ [(st.1, rowsOf N W j)])) (0, [])
      = (offsetAfter N W n,
          (List.range' 1 n).map (fun j => (offsetAfter N W (j - 1), rowsOf N W j))) := by
  induction n with
  | zero => rfl
  | succ n ih =>
    rw [List.range'_concat, List.foldl_append, ih]
    simp [offsetAfter, Nat.add_comm]

theorem partitionLoop_eq (N W : Nat) :
    partitionLoop N W = (offsetAfter N W W,
      (List.range' 1 W).map (fun j => (offsetAfter N W (j - 1), rowsOf N W j))) :=
  partitionLoop_fold N W W

theorem assignments_eq (N W : Nat) :
    assignments N W
      = (List.range' 1 W).map (fun j => (offsetAfter N W (j - 1), rowsOf N W j)) := by
  rw [assignments, partitionLoop_eq]

theorem length_assignments (N W : Nat) : (assignments N W).length = W := by
  simp [assignments_eq]

/-- Worker `j` is entry `j - 1` of the descriptor. -/
theorem assignments_getElem? (N W : Nat) {j : Nat} (h1 : 1 ≤ j) (hj : j ≤ W) :
    (assignments N W)[j - 1]? = some (offsetAfter N W (j - 1), rowsOf N W j) := by
  rw [assignments_eq, List.getElem?_map, List.getElem?_range' _ _ (by omega)]
  simp only [Nat.one_mul, Option.map_some']
  congr 3 <;> omega

/-! ## Lemmas: the scatter loop -/

theorem scatterLoop_ok {N M W : Nat} {a b : List Int} (r0 : Int)
    (ha : a.length = N * M) (hb : b.length = M * N) (n : Nat) (hn : n ≤ W) :
    (List.range' 1 n).foldlM (scatterStep N M W a b) { offset := 0, rows := r0, sent := [] }
      = .ok { offset := offsetAfter N W n
              rows := if n = 0 then r0 else rowsOf N W n
              sent := (List.range' 1 n).flatMap (scatterMsgs N M W a b) } := by
  induction n with
  | zero => rfl
  | succ n ih =>
    have hle := range_le N W (show 1 ≤ n + 1 by omega) hn
    have hbound : offsetAfter N W n * M + rowsOf N W (n + 1) * M ≤ a.length := by
      rw [ha, ← Nat.add_mul]
      exact Nat.mul_le_mul_right M (by simpa using hle)
    rw [foldlM_range'_succ, ih (by omega), ok_bind]
    unfold scatterStep
    simp only
    rw [sendFrom_ok hbound, ok_bind, sendFrom_all hb, ok_bind]
    simp [List.range'_concat, List.flatMap_append, scatterMsgs, offsetAfter, Nat.add_comm]

theorem scatter_ok {N M W : Nat} (mem : Mem) (hW : 1 ≤ W)
    (ha : mem.a.length = N * M) (hb : mem.b.length = M * N) :
    scatter N M (W + 1) mem
      = .ok { offset := N
              rows := rowsOf N W W
              sent := (List.range' 1 W).flatMap (scatterMsgs N M W mem.a mem.b) } := by
  unfold scatter
  rw [if_neg (by omega), Nat.add_sub_cancel, scatterLoop_ok mem.rows ha hb W (Nat.le_refl W),
    offsetAfter_all N W hW, if_neg (by omega)]

theorem inboxOf_scatterMsgs (N M W : Nat) (a b : List Int) (j r : Nat) :
    inboxOf (scatterMsgs N M W a b j) r = if j = r then scatterMsgs N M W a b j else [] := by
  by_cases h : j = r
  · simp [inboxOf, scatterMsgs, h]
  · simp [inboxOf, scatterMsgs, h]

theorem inboxOf_flatMap (N M W : Nat) (a b : List Int) (n r : Nat) :
    inboxOf ((List.range' 1 n).flatMap (scatterMsgs N M W a b)) r
      = if 1 ≤ r ∧ r ≤ n then scatterMsgs N M W a b r else [] := by
  induction n with
  | zero =>
    rw [if_neg (by omega)]
    rfl
  | succ n ih =>
    have happ : inboxOf ((List.range' 1 (n + 1)).flatMap (scatterMsgs N M W a b)) r
        = inboxOf ((List.range' 1 n).flatMap (scatterMsgs N M W a b)) r
          ++ inboxOf (scatterMsgs N M W a b (1 + n)) r := by
      simp [inboxOf, List.range'_concat, List.flatMap_append]
    rw [happ, ih, inboxOf_scatterMsgs]
    by_cases h1 : 1 ≤ r ∧ r ≤ n
    · rw [if_pos h1, if_neg (by omega), if_pos (by omega), List.append_nil]
    · rw [if_neg h1]
      by_cases h2 : 1 + n = r
      · rw [if_pos h2, if_pos (by omega), List.nil_append, h2]
      · rw [if_neg h2, if_neg (by omega), List.append_nil]

/-! ## Lemmas: a worker -/

theorem matProd_congr {N M : Nat} {a a' b : List Int} {i i' : Nat} (k : Nat)
    (h : ∀ j, j < M → a.getD (i * M + j) 0 = a'.getD (i' * M + j) 0) :
    matProd N M a b i k = matProd N M a' b i' k := by
  unfold matProd
  congr 1
  apply List.map_congr_left
  intro j hj
  rw [h j (List.mem_range.mp hj)]

theorem row_range_iff {N off rows i k : Nat} (hk : k < N) :
    (off * N ≤ i * N + k ∧ i * N + k < off * N + rows * N) ↔ (off ≤ i ∧ i < off + rows) := by
  constructor
  · rintro ⟨h1, h2⟩
    constructor
    · by_contra hlt
      have : (i + 1) * N ≤ off * N := Nat.mul_le_mul_right N (by omega)
      rw [Nat.add_mul, Nat.one_mul] at this
      omega
    · by_contra hge
      have : (off + rows) * N ≤ i * N := Nat.mul_le_mul_right N (by omega)
      rw [Nat.add_mul] at this
      omega
  · rintro ⟨h1, h2⟩
    constructor
    · have : off * N ≤ i * N := Nat.mul_le_mul_right N h1
      omega
    · have : (i + 1) * N ≤ (off + rows) * N := Nat.mul_le_mul_right N (by omega)
      rw [Nat.add_mul, Nat.one_mul, Nat.add_mul] at this
      omega

theorem row_sub {N off i k : Nat} (h : off ≤ i) : i * N + k - off * N = (i - off) * N + k := by
  obtain ⟨d, rfl⟩ : ∃ d, i = off + d := ⟨i - off, by omega⟩
  rw [Nat.add_mul, Nat.add_sub_cancel_left]
  omega

/-- Lines 92-106 on a well-formed assignment: the worker echoes `offset` and
`rows` and returns the `rows x N` block of wrapped products. -/
theorem worker_ok {N M : Nat} (rank : Nat) (mem : Mem) (off : Int) {rows : Nat} {ablk b : List Int}
    (d1 d2 d3 d4 : Nat) (hm : mem.Sized N M) (hr : rows ≤ N)
    (hab : ablk.length = rows * M) (hb : b.length = M * N) :
    ∃ blk, worker N M rank mem
        [ ⟨0, d1, master_tag, [off]⟩, ⟨0, d2, master_tag, [(rows : Int)]⟩,
          ⟨0, d3, master_tag, ablk⟩, ⟨0, d4, master_tag, b⟩ ]
        = .ok { sent := replyMsgs rank off rows blk, macs := N * (rows * M) }
      ∧ blk.length = rows * N
      ∧ ∀ i k, i < rows → k < N →
          blk[i * N + k]? = some (wrapInt (matProd N M ablk b i k)) := by
  obtain ⟨hma, hmb, hmc⟩ := hm
  have hrM : rows * M ≤ N * M := Nat.mul_le_mul_right M hr
  have hrN : rows * N ≤ N * N := Nat.mul_le_mul_right N hr
  have hbl : 0 + ablk.length ≤ mem.a.length := by omega
  have hbl' : 0 + b.length ≤ mem.b.length := by omega
  have hla : (blit mem.a 0 ablk).length = N * M := by rw [length_blit hbl, hma]
  have hlb : (blit mem.b 0 b).length = M * N := by rw [length_blit hbl', hmb]
  obtain ⟨c', hk, hl, hp⟩ := kernel_ok rows hla hlb hmc hr
  refine ⟨(c'.drop 0).take (rows * N), ?_, ?_, ?_⟩
  · unfold worker
    rw [recvInt_ok, ok_bind]
    simp only
    rw [recvInt_ok, ok_bind]
    simp only
    rw [if_neg (by omega), Int.toNat_natCast,
      recvInto_ok rfl rfl (by simp [hab]) (by omega), ok_bind]
    simp only
    rw [recvInto_ok rfl rfl (by simp [hb]) (by omega), ok_bind]
    simp only
    rw [hk, ok_bind]
    simp only
    rw [sendFrom_ok (by omega), ok_bind]
    rfl
  · rw [List.drop_zero, List.length_take, hl]
    omega
  · intro i k hi hk'
    have hlt : i * N + k < rows * N := idx_lt hi hk'
    rw [List.drop_zero, List.getElem?_take_of_lt hlt, hp i k (by omega) hk', if_pos hi]
    congr 2
    have hbb : blit mem.b 0 b = b := by
      apply List.ext_getElem?
      intro p
      rw [getElem?_blit hbl']
      by_cases h : p < b.length
      · rw [if_pos ⟨by omega, by omega⟩, Nat.sub_zero]
      · rw [if_neg (by omega), List.getElem?_eq_none (by omega),
          List.getElem?_eq_none (by omega)]
    rw [hbb]
    apply matProd_congr
    intro j hj
    have h2 : i * M + j < rows * M := idx_lt hi hj
    rw [List.getD_eq_getElem?_getD, List.getD_eq_getElem?_getD, getElem?_blit hbl,
      if_pos ⟨by omega, by omega⟩, Nat.sub_zero]

/-! ## Lemmas: the gather loop -/

theorem gatherStep_ok {N : Nat} {outbox : Nat → List Msg} (st : Gather) {r off rows : Nat}
    {blk : List Int} (hout : outbox r = replyMsgs r off rows blk)
    (hblk : blk.length = rows * N) (hle : off + rows ≤ N) (hc : st.c.length = N * N) :
    gatherStep N outbox st r
      = .ok { offset := off
              rows := rows
              c := blit st.c (off * N) blk
              recvs := st.recvs ++
                [(r, worker_tag, 1), (r, worker_tag, 1), (r, worker_tag, rows * N)] } := by
  have hb : off * N + rows * N ≤ st.c.length := by
    rw [hc, ← Nat.add_mul]
    exact Nat.mul_le_mul_right N hle
  unfold gatherStep
  rw [hout, replyMsgs, recvInt_ok, ok_bind]
  simp only
  rw [recvInt_ok, ok_bind]
  simp only
  rw [if_neg (by omega), Int.toNat_natCast, Int.toNat_natCast,
    recvInto_ok rfl rfl (by simp [hblk]) hb, ok_bind]
  rfl

/-- The gather loop over any list of workers whose replies are well formed:
every row in the range of a listed worker holds that worker's values, every
other row is untouched. -/
theorem gatherIn_ok {N : Nat} (outbox : Nat → List Msg) (off rows : Nat → Nat)
    (val : Nat → Nat → Int) (order : List Nat)
    (hout : ∀ r, r ∈ order → ∃ blk, outbox r = replyMsgs r (off r) (rows r) blk
      ∧ blk.length = rows r * N ∧ off r + rows r ≤ N
      ∧ ∀ i k, i < rows r → k < N → blk[i * N + k]? = some (val (off r + i) k))
    (st : Gather) (hc : st.c.length = N * N) :
    ∃ g, gatherIn N order outbox st = .ok g ∧ g.c.length = N * N
      ∧ (∀ i k, i < N → k < N → g.c[i * N + k]? =
          if ∃ r, r ∈ order ∧ off r ≤ i ∧ i < off r + rows r then some (val i k)
          else st.c[i * N + k]?)
      ∧ g.recvs = st.recvs ++ order.flatMap
          (fun r => [(r, worker_tag, 1), (r, worker_tag, 1), (r, worker_tag, rows r * N)]) := by
  induction order generalizing st with
  | nil => exact ⟨st, rfl, hc, by simp, by simp⟩
  | cons r rest ih =>
    obtain ⟨blk, ho, hbl, hle, hv⟩ := hout r (List.mem_cons_self r rest)
    have hb : off r * N + blk.length ≤ st.c.length := by
      rw [hc, hbl, ← Nat.add_mul]
      exact Nat.mul_le_mul_right N hle
    have hstep := gatherStep_ok st ho hbl hle hc
    obtain ⟨g, hg, hgl, hgp, hgr⟩ := ih
      (fun r' hr' => hout r' (List.mem_cons_of_mem r hr'))
      { offset := off r, rows := rows r, c := blit st.c (off r * N) blk
        recvs := st.recvs ++
          [(r, worker_tag, 1), (r, worker_tag, 1), (r, worker_tag, rows r * N)] }
      (by rw [length_blit hb, hc])
    refine ⟨g, ?_, hgl, ?_, ?_⟩
    · unfold gatherIn at hg ⊢
      rw [List.foldlM_cons, hstep, ok_bind]
      exact hg
    · intro i k hi hk
      rw [hgp i k hi hk]
      by_cases hrest : ∃ r', r' ∈ rest ∧ off r' ≤ i ∧ i < off r' + rows r'
      · obtain ⟨r', h1, h2⟩ := hrest
        rw [if_pos ⟨r', h1, h2⟩, if_pos ⟨r', List.mem_cons_of_mem r h1, h2⟩]
      · rw [if_neg hrest]
        simp only
        rw [getElem?_blit hb, hbl]
        by_cases hin : off r ≤ i ∧ i < off r + rows r
        · rw [if_pos ((row_range_iff hk).mpr hin), if_pos ⟨r, List.mem_cons_self r rest, hin⟩,
            row_sub hin.1, hv (i - off r) k (by omega) hk]
          congr 3
          omega
        · rw [if_neg (fun h => hin ((row_range_iff hk).mp h)), if_neg]
          rintro ⟨r', hm, h2⟩
          rcases List.mem_cons.mp hm with heq | hmem
          · subst heq; exact hin h2
          · exact hrest ⟨r', hmem, h2⟩
    · rw [hgr]
      simp [List.flatMap_cons]

/-! ## Lemmas: one round -/

theorem length_prodFlat (N M : Nat) (a b : List Int) : (prodFlat N M a b).length = N * N := by
  simp [prodFlat]

theorem getElem?_prodFlat {N M : Nat} (a b : List Int) {i k : Nat} (hi : i < N) (hk : k < N) :
    (prodFlat N M a b)[i * N + k]? = some (wrapInt (matProd N M a b i k)) := by
  rw [prodFlat, List.getElem?_map, List.getElem?_range (idx_lt hi hk), Option.map_some',
    idx_div hk, idx_mod hk]

/-- The block of `A` sent to worker `j` is rows `offset .. offset + rows` of `A`. -/
theorem block_getElem? {M : Nat} (a : List Int) (off : Nat) {rows i j : Nat}
    (hi : i < rows) (hj : j < M) :
    ((a.drop (off * M)).take (rows * M))[i * M + j]? = a[(off + i) * M + j]? := by
  rw [List.getElem?_take_of_lt (idx_lt hi hj), List.getElem?_drop]
  congr 1
  rw [Nat.add_mul]
  omega

theorem length_block {N M : Nat} {a : List Int} {off rows : Nat} (ha : a.length = N * M)
    (hle : off + rows ≤ N) : ((a.drop (off * M)).take (rows * M)).length = rows * M := by
  have : (off + rows) * M ≤ N * M := Nat.mul_le_mul_right M hle
  rw [Nat.add_mul] at this
  rw [List.length_take, List.length_drop, ha]
  omega

/-- The reply of worker `r` to the scatter of a round. -/
theorem replies_ok {N M W : Nat} {a b : List Int} {wmem : Nat → Mem}
    (ha : a.length = N * M) (hb : b.length = M * N) (hw : ∀ r, (wmem r).Sized N M)
    {r : Nat} (h1 : 1 ≤ r) (hr : r ≤ W) :
    ∃ blk, replies N M wmem ((List.range' 1 W).flatMap (scatterMsgs N M W a b)) r
        = replyMsgs r (offsetAfter N W (r - 1) : Nat) (rowsOf N W r : Nat) blk
      ∧ worker N M r (wmem r)
          (inboxOf ((List.range' 1 W).flatMap (scatterMsgs N M W a b)) r)
        = .ok { sent := replyMsgs r (offsetAfter N W (r - 1) : Nat) (rowsOf N W r : Nat) blk
                macs := N * (rowsOf N W r * M) }
      ∧ blk.length = rowsOf N W r * N
      ∧ offsetAfter N W (r - 1) + rowsOf N W r ≤ N
      ∧ ∀ i k, i < rowsOf N W r → k < N →
          blk[i * N + k]? = some (wrapInt (matProd N M a b (offsetAfter N W (r - 1) + i) k)) := by
  have hle := range_le N W h1 hr
  obtain ⟨blk, hwk, hl, hp⟩ := worker_ok r (wmem r)
    (offsetAfter N W (r - 1) : Nat) r r r r (hw r) (show rowsOf N W r ≤ N by omega)
    (length_block ha hle) hb
  have hin : inboxOf ((List.range' 1 W).flatMap (scatterMsgs N M W a b)) r
      = scatterMsgs N M W a b r := by
    rw [inboxOf_flatMap, if_pos ⟨h1, hr⟩]
  refine ⟨blk, ?_, ?_, hl, hle, ?_⟩
  · rw [replies, hin, scatterMsgs, hwk]
    rfl
  · rw [hin, scatterMsgs, hwk]
  · intro i k hi hk
    rw [hp i k hi hk]
    congr 2
    apply matProd_congr
    intro j hj
    rw [List.getD_eq_getElem?_getD, List.getD_eq_getElem?_getD, block_getElem? a _ hi hj]

/-- A round with `W >= 1` workers and the gather taken over any list `order`
of workers: it completes, the rows of the listed workers hold the wrapped
products and the other rows keep what `c` held before. -/
theorem roundIn_ok {N M W : Nat} {mem : Mem} {wmem : Nat → Mem} (hW : 1 ≤ W)
    (hm : mem.Sized N M) (hw : ∀ r, (wmem r).Sized N M)
    (order : List Nat) (ho : ∀ r, r ∈ order → 1 ≤ r ∧ r ≤ W) :
    ∃ g, roundIn N M (W + 1) order mem wmem = .ok g ∧ g.c.length = N * N
      ∧ (∀ i k, i < N → k < N → g.c[i * N + k]? =
          if ∃ r, r ∈ order ∧ offsetAfter N W (r - 1) ≤ i
              ∧ i < offsetAfter N W (r - 1) + rowsOf N W r
          then some (wrapInt (matProd N M mem.a mem.b i k))
          else mem.c[i * N + k]?)
      ∧ g.recvs = order.flatMap (recvsOf N W) := by
  obtain ⟨hma, hmb, hmc⟩ := hm
  obtain ⟨g, hg, hgl, hgp, hgr⟩ := gatherIn_ok
    (replies N M wmem ((List.range' 1 W).flatMap (scatterMsgs N M W mem.a mem.b)))
    (fun r => offsetAfter N W (r - 1)) (fun r => rowsOf N W r)
    (fun i k => wrapInt (matProd N M mem.a mem.b i k)) order
    (fun r hr => by
      obtain ⟨blk, h1, _, h3, h4, h5⟩ := replies_ok hma hmb hw (ho r hr).1 (ho r hr).2
      exact ⟨blk, h1, h3, h4, h5⟩)
    { offset := N, rows := rowsOf N W W, c := mem.c, recvs := [] } hmc
  refine ⟨g, ?_, hgl, hgp, ?_⟩
  · unfold roundIn
    rw [scatter_ok mem hW hma hmb, ok_bind]
    exact hg
  · rw [hgr]
    rfl

/-- When the gather visits every worker, the assembled array is `prodFlat`. -/
theorem roundIn_all {N M W : Nat} {mem : Mem} {wmem : Nat → Mem} (hW : 1 ≤ W)
    (hm : mem.Sized N M) (hw : ∀ r, (wmem r).Sized N M)
    (order : List Nat) (ho : ∀ r, r ∈ order ↔ 1 ≤ r ∧ r ≤ W) :
    ∃ g, roundIn N M (W + 1) order mem wmem = .ok g
      ∧ g.c = prodFlat N M mem.a mem.b
      ∧ g.recvs = order.flatMap (recvsOf N W) := by
  obtain ⟨g, hg, hgl, hgp, hgr⟩ := roundIn_ok hW hm hw order (fun r hr => (ho r).mp hr)
  refine ⟨g, hg, ?_, hgr⟩
  apply ext2 hgl (length_prodFlat N M mem.a mem.b)
  intro i k hi hk
  obtain ⟨j, h1, h2, h3, h4⟩ := row_covered N W hW hi
  rw [hgp i k hi hk, if_pos ⟨j, (ho j).mpr ⟨h1, h2⟩, h3, h4⟩, getElem?_prodFlat _ _ hi hk]

theorem round_ok {N M W : Nat} {mem : Mem} {wmem : Nat → Mem} (hW : 1 ≤ W)
    (hm : mem.Sized N M) (hw : ∀ r, (wmem r).Sized N M) :
    ∃ g, round N M (W + 1) mem wmem = .ok g
      ∧ g.c = prodFlat N M mem.a mem.b
      ∧ g.recvs = (List.range' 1 W).flatMap (recvsOf N W) := by
  unfold round
  rw [Nat.add_sub_cancel]
  exact roundIn_all hW hm hw _ (fun r => by rw [List.mem_range'_1]; omega)

theorem assembled_ok {N M W : Nat} {mem : Mem} {wmem : Nat → Mem} (hW : 1 ≤ W)
    (hm : mem.Sized N M) (hw : ∀ r, (wmem r).Sized N M) :
    assembled N M (W + 1) mem wmem = .ok (prodFlat N M mem.a mem.b) := by
  obtain ⟨g, hg, hc, _⟩ := round_ok hW hm hw
  rw [assembled, hg, ← hc]

/-! ## Lemmas: input generation -/

/-- The loop of line 31 (or 35) on row `i` of an `R x C` array. -/
theorem fillRow_ok {R C i : Nat} (hi : i < R) (n : Nat) (hn : n ≤ C)
    (buf : List Int) (hlen : buf.length = R * C) :
    ∃ buf', (List.range n).foldlM (fun t j => set2 t R C i j (addInt j 1)) buf = .ok buf'
      ∧ buf'.length = R * C
      ∧ ∀ i' j', i' < R → j' < C → buf'[i' * C + j']? =
          if i' = i ∧ j' < n then some (addInt j' 1) else buf[i' * C + j']? := by
  induction n with
  | zero => exact ⟨buf, rfl, hlen, by simp⟩
  | succ n ih =>
    obtain ⟨b1, h1, hl1, hp1⟩ := ih (by omega)
    have hlt : i * C + n < b1.length := hl1 ▸ idx_lt hi (by omega)
    refine ⟨b1.set (i * C + n) (addInt n 1), ?_, by simpa using hl1, ?_⟩
    · rw [foldlM_range_succ, h1, ok_bind, set2_ok _ hi (by omega) hl1]
    · intro i' j' hi' hj'
      rw [List.getElem?_set]
      by_cases heq : i * C + n = i' * C + j'
      · obtain ⟨e1, e2⟩ := idx_inj (show n < C by omega) hj' heq
        subst e1 e2
        simp [hlt]
      · rw [if_neg heq, hp1 i' j' hi' hj']
        by_cases hA : i' = i ∧ j' < n
        · rw [if_pos hA, if_pos ⟨hA.1, by omega⟩]
        · rw [if_neg hA, if_neg]
          rintro ⟨e1, e2⟩
          have : j' = n := by
            by_contra hne
            exact hA ⟨e1, by omega⟩
          subst e1 this
          exact heq rfl

/-- The nested loops of lines 30-32 (or 34-36) on an `R x C` array. -/
theorem fill_ok {R C : Nat} (n : Nat) (hn : n ≤ R) (buf : List Int) (hlen : buf.length = R * C) :
    ∃ buf', (List.range n).foldlM
          (fun t i => (List.range C).foldlM (fun u j => set2 u R C i j (addInt j 1)) t) buf
        = .ok buf'
      ∧ buf'.length = R * C
      ∧ ∀ i' j', i' < R → j' < C → buf'[i' * C + j']? =
          if i' < n then some (addInt j' 1) else buf[i' * C + j']? := by
  induction n with
  | zero => exact ⟨buf, rfl, hlen, by simp⟩
  | succ n ih =>
    obtain ⟨b1, h1, hl1, hp1⟩ := ih (by omega)
    obtain ⟨b2, h2, hl2, hp2⟩ := fillRow_ok (show n < R by omega) C (Nat.le_refl C) b1 hl1
    refine ⟨b2, ?_, hl2, ?_⟩
    · rw [foldlM_range_succ, h1, ok_bind, h2]
    · intro i' j' hi' hj'
      rw [hp2 i' j' hi' hj', hp1 i' j' hi' hj']
      by_cases hA : i' = n
      · rw [if_pos ⟨hA, hj'⟩, if_pos (by omega)]
      · rw [if_neg (fun h => hA h.1)]
        by_cases hB : i' < n
        · rw [if_pos hB, if_pos (by omega)]
        · rw [if_neg hB, if_neg (by omega)]

theorem genA_ok {N M : Nat} {a : List Int} (ha : a.length = N * M) :
    ∃ a', genA N M a = .ok a' ∧ a'.length = N * M
      ∧ ∀ i j, i < N → j < M → a'[i * M + j]? = some (addInt j 1) := by
  obtain ⟨a', h, hl, hp⟩ := fill_ok N (Nat.le_refl N) a ha
  refine ⟨a', h, hl, ?_⟩
  intro i j hi hj
  rw [hp i j hi hj, if_pos hi]

theorem genB_ok {N M : Nat} {b : List Int} (hb : b.length = M * N) :
    ∃ b', genB N M b = .ok b' ∧ b'.length = M * N
      ∧ ∀ i j, i < M → j < N → b'[i * N + j]? = some (addInt j 1) := by
  obtain ⟨b', h, hl, hp⟩ := fill_ok M (Nat.le_refl M) b hb
  refine ⟨b', h, hl, ?_⟩
  intro i j hi hj
  rw [hp i j hi hj, if_pos hi]

/-! ## Lemmas: the coordinator's run -/

/-- With a single process the partition arithmetic of line 53 divides by zero. -/
theorem scatter_one (N M : Nat) (mem : Mem) : scatter N M 1 mem = .error .divByZero := rfl

theorem coordinator_one {N M : Nat} {mem : Mem} (wmem : Nat → Mem) (hm : mem.Sized N M) :
    coordinator N M 1 mem wmem
      = ⟨[.wtime, .generateA, .generateB, .printA, .printB], .error .divByZero⟩ := by
  obtain ⟨a', ha, _, _⟩ := genA_ok hm.1
  obtain ⟨b', hb, _, _⟩ := genB_ok hm.2.1
  unfold coordinator
  rw [ha]
  simp only
  rw [hb]
  rfl

theorem map_scatterMsgs {N M W : Nat} {a b : List Int} (ha : a.length = N * M)
    (hb : b.length = M * N) (n : Nat) (hn : n ≤ W) :
    ((List.range' 1 n).flatMap (scatterMsgs N M W a b)).map
        (fun m => Event.send m.dest m.tag m.data.length)
      = (List.range' 1 n).flatMap (sendsOf N M W) := by
  induction n with
  | zero => rfl
  | succ n ih =>
    have hle := range_le N W (show 1 ≤ 1 + n by omega) (by omega)
    rw [List.range'_concat, List.flatMap_append, List.flatMap_append, List.map_append,
      ih (by omega)]
    congr 1
    simp only [Nat.one_mul, List.flatMap_cons, List.flatMap_nil, List.append_nil, scatterMsgs,
      sendsOf, List.map_cons, List.map_nil, List.length_singleton]
    rw [length_block ha hle, hb]

/-- A run with `W >= 1` workers: the full sequence of actions and the result. -/
theorem coordinator_ok {N M W : Nat} {mem : Mem} {wmem : Nat → Mem} (hW : 1 ≤ W)
    (hm : mem.Sized N M) (hw : ∀ r, (wmem r).Sized N M) :
    ∃ a b, genA N M mem.a = .ok a ∧ genB N M mem.b = .ok b
      ∧ a.length = N * M ∧ b.length = M * N
      ∧ (∀ i j, i < N → j < M → a[i * M + j]? = some (addInt j 1))
      ∧ (∀ i j, i < M → j < N → b[i * N + j]? = some (addInt j 1))
      ∧ coordinator N M (W + 1) mem wmem
        = ⟨[.wtime, .generateA, .generateB, .printA, .printB] ++ [.partition]
              ++ (List.range' 1 W).flatMap (sendsOf N M W)
              ++ ((List.range' 1 W).flatMap (recvsOf N W)).map
                  (fun r => Event.recv r.1 r.2.1 r.2.2)
              ++ [.printC, .wtime, .printElapsed],
            .ok (prodFlat N M a b)⟩ := by
  obtain ⟨a, hga, hla, hpa⟩ := genA_ok hm.1
  obtain ⟨b, hgb, hlb, hpb⟩ := genB_ok hm.2.1
  refine ⟨a, b, hga, hgb, hla, hlb, hpa, hpb, ?_⟩
  have hm1 : Mem.Sized N M { mem with a := a, b := b } := ⟨hla, hlb, hm.2.2⟩
  obtain ⟨g, hg, hc, hr⟩ := round_ok hW hm1 hw
  have hsc := scatter_ok { mem with a := a, b := b } hW hla hlb
  unfold round roundIn at hg
  rw [hsc, ok_bind] at hg
  unfold coordinator
  rw [hga]
  simp only
  rw [hgb]
  simp only
  rw [hsc]
  simp only
  unfold gather
  rw [hg]
  simp only
  rw [hc, hr, map_scatterMsgs hla hlb W (Nat.le_refl W)]

theorem Mem.fill_sized (N M : Nat) (g : Int) : (Mem.fill N M g).Sized N M := by
  simp [Mem.fill, Mem.Sized]

/-! ## C1: the assembled matrix -/

/-- C1 (as amended): for every `N`, `M`, every `W >= 1` (that is `W + 1`
processes) and all arrays `a` (`N x M`) and `b` (`M x N`), whatever the other
cells of the memories held, one round completes and every entry `C[i][k]` of
the assembled array is the sum over `j < M` of `a[i][j] * b[j][k]` reduced to
the 32-bit range of a C `int`; it is that sum itself whenever the sum lies in
the `int` range; and the assembled array is the same for every other worker
count `W' >= 1`. -/
theorem assembled_is_product (N M W : Nat) (mem : Mem) (wmem : Nat → Mem) (hW : 1 ≤ W)
    (hm : mem.Sized N M) (hw : ∀ r, (wmem r).Sized N M) :
    ∃ C, assembled N M (W + 1) mem wmem = .ok C ∧ C.length = N * N
      ∧ (∀ i k, i < N → k < N →
          C[i * N + k]? = some (wrapInt (matProd N M mem.a mem.b i k)))
      ∧ (∀ i k, i < N → k < N → -2147483648 ≤ matProd N M mem.a mem.b i k →
          matProd N M mem.a mem.b i k < 2147483648 →
          C[i * N + k]? = some (matProd N M mem.a mem.b i k))
      ∧ (∀ W' wmem', 1 ≤ W' → (∀ r, (wmem' r).Sized N M) →
          assembled N M (W' + 1) mem wmem' = .ok C) := by
  refine ⟨prodFlat N M mem.a mem.b, assembled_ok hW hm hw, length_prodFlat N M _ _,
    fun i k hi hk => getElem?_prodFlat _ _ hi hk, ?_, fun W' wmem' hW' hw' =>
      assembled_ok hW' hm hw'⟩
  intro i k hi hk h1 h2
  rw [getElem?_prodFlat _ _ hi hk, wrapInt_of_range h1 h2]

/-- C1, witness: `N = 2`, `M = 3`, two workers. -/
theorem assembled_is_product_witness :
    ∃ C, assembled 2 3 3 (Mem.inputs 2 [1, 2, 3, 4, 5, 6] [1, 2, 3, 4, 5, 6] 7)
          (fun r => Mem.fill 2 3 r) = .ok C ∧ C.length = 2 * 2
      ∧ (∀ i k, i < 2 → k < 2 → C[i * 2 + k]? = some (wrapInt
          (matProd 2 3 (Mem.inputs 2 [1, 2, 3, 4, 5, 6] [1, 2, 3, 4, 5, 6] 7).a
            (Mem.inputs 2 [1, 2, 3, 4, 5, 6] [1, 2, 3, 4, 5, 6] 7).b i k)))
      ∧ (∀ i k, i < 2 → k < 2 →
          -2147483648 ≤ matProd 2 3 (Mem.inputs 2 [1, 2, 3, 4, 5, 6] [1, 2, 3, 4, 5, 6] 7).a
            (Mem.inputs 2 [1, 2, 3, 4, 5, 6] [1, 2, 3, 4, 5, 6] 7).b i k →
          matProd 2 3 (Mem.inputs 2 [1, 2, 3, 4, 5, 6] [1, 2, 3, 4, 5, 6] 7).a
            (Mem.inputs 2 [1, 2, 3, 4, 5, 6] [1, 2, 3, 4, 5, 6] 7).b i k < 2147483648 →
          C[i * 2 + k]? = some
            (matProd 2 3 (Mem.inputs 2 [1, 2, 3, 4, 5, 6] [1, 2, 3, 4, 5, 6] 7).a
              (Mem.inputs 2 [1, 2, 3, 4, 5, 6] [1, 2, 3, 4, 5, 6] 7).b i k))
      ∧ (∀ W' wmem', 1 ≤ W' → (∀ r, (wmem' r).Sized 2 3) →
          assembled 2 3 (W' + 1) (Mem.inputs 2 [1, 2, 3, 4, 5, 6] [1, 2, 3, 4, 5, 6] 7) wmem'
            = .ok C) :=
  assembled_is_product 2 3 2 (Mem.inputs 2 [1, 2, 3, 4, 5, 6] [1, 2, 3, 4, 5, 6] 7)
    (fun r => Mem.fill 2 3 r) (by decide) (by decide) (fun r => Mem.fill_sized 2 3 r)

/-- C1, counterexample: for the `1 x 1` matrices `[65536]` and `[65536]` the
sum of products is `2^32`, which no C `int` holds; the assembled entry is `0`. -/
theorem assembled_is_product_counterexample :
    assembled 1 1 2 (Mem.inputs 1 [65536] [65536] 7) (fun _ => Mem.fill 1 1 9) = .ok [0]
      ∧ matProd 1 1 [65536] [65536] 0 0 = 4294967296
      ∧ ([0] : List Int)[0 * 1 + 0]? ≠ some (matProd 1 1 [65536] [65536] 0 0) := by
  refine ⟨by decide, by decide, by decide⟩

/-! ## C2, C3: the partition -/

/-- The descriptor entries, spelled out. -/
theorem assignments_entry {N W j : Nat} {p : Nat × Nat} (h : (assignments N W)[j]? = some p) :
    j < W ∧ p = (offsetAfter N W j, rowsOf N W (j + 1)) := by
  have hj : j < W := by
    by_contra hge
    rw [List.getElem?_eq_none (by rw [length_assignments]; omega)] at h
    exact Option.noConfusion h
  have h2 := assignments_getElem? N W (show 1 ≤ j + 1 by omega) (show j + 1 ≤ W by omega)
  rw [Nat.add_sub_cancel, h] at h2
  exact ⟨hj, Option.some.inj h2⟩

theorem rowsOf_bounds (N W j : Nat) : N / W ≤ rowsOf N W j ∧ rowsOf N W j ≤ N / W + 1 := by
  unfold rowsOf
  split <;> omega

theorem rowsOf_anti (N W : Nat) {i j : Nat} (h : i ≤ j) : rowsOf N W j ≤ rowsOf N W i := by
  unfold rowsOf
  split <;> split <;> omega

theorem sum_rows (N W n : Nat) :
    (((List.range' 1 n).map (fun j => (offsetAfter N W (j - 1), rowsOf N W j))).map
        Prod.snd).sum = offsetAfter N W n := by
  induction n with
  | zero => rfl
  | succ n ih =>
    rw [List.range'_concat, List.map_append, List.map_append, List.sum_append, ih]
    simp [offsetAfter, Nat.add_comm]

/-- C2: for every `N` and `W >= 1` the partition descriptor has one pair per
worker; the first offset is 0; each next offset is the previous offset plus
the previous row count (contiguous); the range of an earlier worker ends at or
before the start of a later one and every range ends at or before `N`
(non-overlapping, inside `[0, N)`); every row below `N` lies in the range of
exactly one worker (cover); the row counts sum to `N`; and no two row counts
differ by more than 1. -/
theorem partition_coverage (N W : Nat) (hW : 1 ≤ W) :
    (assignments N W).length = W
      ∧ (∃ rows, (assignments N W)[0]? = some (0, rows))
      ∧ (∀ j off rows off' rows' : Nat, (assignments N W)[j]? = some (off, rows) →
          (assignments N W)[j + 1]? = some (off', rows') → off' = off + rows)
      ∧ (∀ i j off rows off' rows' : Nat, i < j → (assignments N W)[i]? = some (off, rows) →
          (assignments N W)[j]? = some (off', rows') → off + rows ≤ off')
      ∧ (∀ j off rows : Nat, (assignments N W)[j]? = some (off, rows) → off + rows ≤ N)
      ∧ (∀ r : Nat, r < N → ∃! j : Nat, ∃ off rows : Nat,
          (assignments N W)[j]? = some (off, rows) ∧ off ≤ r ∧ r < off + rows)
      ∧ ((assignments N W).map Prod.snd).sum = N
      ∧ (∀ p q, p ∈ assignments N W → q ∈ assignments N W → p.2 ≤ q.2 + 1) := by
  have hdisj : ∀ i j off rows off' rows' : Nat, i < j → (assignments N W)[i]? = some (off, rows) →
      (assignments N W)[j]? = some (off', rows') → off + rows ≤ off' := by
    intro i j off rows off' rows' hij hp hq
    obtain ⟨_, e1⟩ := assignments_entry hp
    obtain ⟨_, e2⟩ := assignments_entry hq
    cases e1; cases e2
    have := offsetAfter_mono N W (show i + 1 ≤ j by omega)
    simpa [offsetAfter] using this
  refine ⟨length_assignments N W, ⟨rowsOf N W 1, ?_⟩, ?_, hdisj, ?_, ?_, ?_, ?_⟩
  · exact assignments_getElem? N W (Nat.le_refl 1) hW
  · intro j off rows off' rows' hp hq
    obtain ⟨_, e1⟩ := assignments_entry hp
    obtain ⟨_, e2⟩ := assignments_entry hq
    cases e1; cases e2
    rfl
  · intro j off rows hp
    obtain ⟨hj, e1⟩ := assignments_entry hp
    cases e1
    have := range_le N W (show 1 ≤ j + 1 by omega) (show j + 1 ≤ W by omega)
    simpa using this
  · intro r hr
    obtain ⟨j, h1, h2, h3, h4⟩ := row_covered N W hW hr
    have hq := assignments_getElem? N W h1 h2
    refine ⟨j - 1, ⟨_, _, hq, h3, h4⟩, ?_⟩
    rintro j' ⟨off, rows, hp, hp1, hp2⟩
    rcases Nat.lt_trichotomy j' (j - 1) with hlt | heq | hgt
    · have := hdisj _ _ _ _ _ _ hlt hp hq
      omega
    · exact heq
    · have := hdisj _ _ _ _ _ _ hgt hq hp
      omega
  · rw [assignments_eq, sum_rows, offsetAfter_all N W hW]
  · intro p q hp hq
    obtain ⟨i, hi⟩ := List.getElem?_of_mem hp
    obtain ⟨j, hj⟩ := List.getElem?_of_mem hq
    obtain ⟨_, rfl⟩ := assignments_entry hi
    obtain ⟨_, rfl⟩ := assignments_entry hj
    have h1 := rowsOf_bounds N W (i + 1)
    have h2 := rowsOf_bounds N W (j + 1)
    simp only
    omega

/-- C2, witness: `N = 4` rows over `W = 3` workers. -/
theorem partition_coverage_witness :
    (assignments 4 3).length = 3
      ∧ (∃ rows, (assignments 4 3)[0]? = some (0, rows))
      ∧ (∀ j off rows off' rows' : Nat, (assignments 4 3)[j]? = some (off, rows) →
          (assignments 4 3)[j + 1]? = some (off', rows') → off' = off + rows)
      ∧ (∀ i j off rows off' rows' : Nat, i < j → (assignments 4 3)[i]? = some (off, rows) →
          (assignments 4 3)[j]? = some (off', rows') → off + rows ≤ off')
      ∧ (∀ j off rows : Nat, (assignments 4 3)[j]? = some (off, rows) → off + rows ≤ 4)
      ∧ (∀ r : Nat, r < 4 → ∃! j : Nat, ∃ off rows : Nat,
          (assignments 4 3)[j]? = some (off, rows) ∧ off ≤ r ∧ r < off + rows)
      ∧ ((assignments 4 3).map Prod.snd).sum = 4
      ∧ (∀ p q, p ∈ assignments 4 3 → q ∈ assignments 4 3 → p.2 ≤ q.2 + 1) :=
  partition_coverage 4 3 (by decide)

/-- C3: for every `N`, `W >= 1` and worker `j` in `1 .. W`, the descriptor
gives worker `j` exactly `N / W + 1` rows when `j <= N % W` and exactly `N / W`
rows otherwise; the row counts never increase with the rank; and for `N = 4`,
`W = 3` the pairs are `(0,2)`, `(2,1)`, `(3,1)`. -/
theorem partition_front_loaded (N W : Nat) (hW : 1 ≤ W) :
    (∀ j, 1 ≤ j → j ≤ W → ∃ off, (assignments N W)[j - 1]?
        = some (off, if j ≤ N % W then N / W + 1 else N / W))
      ∧ (∀ i j off rows off' rows' : Nat, i ≤ j → (assignments N W)[i]? = some (off, rows) →
          (assignments N W)[j]? = some (off', rows') → rows' ≤ rows)
      ∧ (assignments N W).length = W
      ∧ assignments 4 3 = [(0, 2), (2, 1), (3, 1)] := by
  have _ := hW
  refine ⟨?_, ?_, length_assignments N W, by decide⟩
  · intro j h1 h2
    exact ⟨offsetAfter N W (j - 1), assignments_getElem? N W h1 h2⟩
  · intro i j off rows off' rows' hij hp hq
    obtain ⟨_, e1⟩ := assignments_entry hp
    obtain ⟨_, e2⟩ := assignments_entry hq
    cases e1; cases e2
    exact rowsOf_anti N W (by omega)

/-- C3, witness: `N = 7` rows over `W = 3` workers. -/
theorem partition_front_loaded_witness :
    (∀ j, 1 ≤ j → j ≤ 3 → ∃ off, (assignments 7 3)[j - 1]?
        = some (off, if j ≤ 7 % 3 then 7 / 3 + 1 else 7 / 3))
      ∧ (∀ i j off rows off' rows' : Nat, i ≤ j → (assignments 7 3)[i]? = some (off, rows) →
          (assignments 7 3)[j]? = some (off', rows') → rows' ≤ rows)
      ∧ (assignments 7 3).length = 3
      ∧ assignments 4 3 = [(0, 2), (2, 1), (3, 1)] :=
  partition_front_loaded 7 3 (by decide)

/-! ## C4: more workers than rows -/

theorem rowsOf_small {N W : Nat} (h : N < W) (j : Nat) :
    rowsOf N W j = if j ≤ N then 1 else 0 := by
  unfold rowsOf
  rw [Nat.mod_eq_of_lt h, Nat.div_eq_of_lt h]

theorem offsetAfter_small {N W : Nat} (h : N < W) (n : Nat) :
    offsetAfter N W n = min n N := by
  rw [offsetAfter_closed, Nat.mod_eq_of_lt h, Nat.div_eq_of_lt h]
  omega

/-- C4: for every `N < W`, a worker of rank `j <= N` is assigned exactly one
row and a worker of rank `j > N` the pair `(N, 0)`; the scatter completes, and
every zero-row worker is sent `offset`, `rows = 0`, an empty block of `A` and
all of `B`, runs lines 92-106 without a fault, performs no multiply-accumulate
and replies with its offset, `0` and an empty block; the round completes; and
for `N = 0` the assembled array is empty. -/
theorem zero_row_workers (N M W : Nat) (mem : Mem) (wmem : Nat → Mem) (hNW : N < W)
    (hm : mem.Sized N M) (hw : ∀ r, (wmem r).Sized N M) :
    (∀ j, 1 ≤ j → j ≤ N → ∃ off, (assignments N W)[j - 1]? = some (off, 1))
      ∧ (∀ j, N < j → j ≤ W → (assignments N W)[j - 1]? = some (N, 0))
      ∧ (∃ sc, scatter N M (W + 1) mem = .ok sc ∧ ∀ j, N < j → j ≤ W →
          inboxOf sc.sent j
            = [ ⟨0, j, master_tag, [(N : Int)]⟩, ⟨0, j, master_tag, [0]⟩,
                ⟨0, j, master_tag, []⟩, ⟨0, j, master_tag, mem.b⟩ ]
          ∧ worker N M j (wmem j) (inboxOf sc.sent j)
            = .ok { sent := [ ⟨j, 0, worker_tag, [(N : Int)]⟩, ⟨j, 0, worker_tag, [0]⟩,
                              ⟨j, 0, worker_tag, []⟩ ]
                    macs := 0 })
      ∧ (∃ C, assembled N M (W + 1) mem wmem = .ok C ∧ C.length = N * N)
      ∧ (N = 0 → assembled N M (W + 1) mem wmem = .ok []) := by
  have hW : 1 ≤ W := by omega
  refine ⟨?_, ?_, ?_, ?_, ?_⟩
  · intro j h1 h2
    refine ⟨offsetAfter N W (j - 1), ?_⟩
    rw [assignments_getElem? N W h1 (by omega), rowsOf_small hNW, if_pos h2]
  · intro j h1 h2
    rw [assignments_getElem? N W (by omega) h2, rowsOf_small hNW, if_neg (by omega),
      offsetAfter_small hNW, Nat.min_eq_right (by omega)]
  · refine ⟨_, scatter_ok mem hW hm.1 hm.2.1, ?_⟩
    intro j h1 h2
    have hj1 : 1 ≤ j := by omega
    have hr : rowsOf N W j = 0 := by rw [rowsOf_small hNW, if_neg (by omega)]
    have ho : offsetAfter N W (j - 1) = N := by
      rw [offsetAfter_small hNW, Nat.min_eq_right (by omega)]
    obtain ⟨blk, _, hwk, hl, _, _⟩ := replies_ok hm.1 hm.2.1 hw hj1 h2
    have hblk : blk = [] := by
      apply List.eq_nil_of_length_eq_zero
      rw [hl, hr, Nat.zero_mul]
    constructor
    · simp only
      rw [inboxOf_flatMap, if_pos ⟨hj1, h2⟩, scatterMsgs, hr, ho, Nat.zero_mul, List.take_zero]
      rfl
    · simp only
      rw [hwk, hblk, hr, ho, replyMsgs, Nat.zero_mul, Nat.mul_zero]
      rfl
  · exact ⟨_, assembled_ok hW hm hw, length_prodFlat N M _ _⟩
  · intro h0
    rw [assembled_ok hW hm hw]
    subst h0
    rfl

/-- C4, witness: `N = 1` row over `W = 3` workers, `M = 2`. -/
theorem zero_row_workers_witness :
    (∃ sc, scatter 1 2 (3 + 1) (Mem.fill 1 2 5) = .ok sc ∧ ∀ j, 1 < j → j ≤ 3 →
          inboxOf sc.sent j
            = [ ⟨0, j, master_tag, [((1 : Nat) : Int)]⟩, ⟨0, j, master_tag, [0]⟩,
                ⟨0, j, master_tag, []⟩, ⟨0, j, master_tag, (Mem.fill 1 2 5).b⟩ ]
          ∧ worker 1 2 j (Mem.fill 1 2 (j : Int)) (inboxOf sc.sent j)
            = .ok { sent := [ ⟨j, 0, worker_tag, [((1 : Nat) : Int)]⟩,
                              ⟨j, 0, worker_tag, [0]⟩, ⟨j, 0, worker_tag, []⟩ ]
                    macs := 0 }) :=
  (zero_row_workers 1 2 3 (Mem.fill 1 2 5) (fun r => Mem.fill 1 2 r) (by decide) (by decide)
    (fun r => Mem.fill_sized 1 2 r)).2.2.1

/-! ## C5: a single process -/

/-- C5 (as amended): with a single process (`P = 1`) the coordinator does not
stop at startup and raises no topology error: it reads the clock, generates and
prints `A` and `B`, and then the partition arithmetic of line 53 divides by
zero, which stops it; no send is attempted, no receive is posted and no result
matrix is reported. -/
theorem single_process_run (N M : Nat) (mem : Mem) (wmem : Nat → Mem) (hm : mem.Sized N M) :
    (∃ a b, genA N M mem.a = .ok a ∧ genB N M mem.b = .ok b
        ∧ scatter N M 1 { mem with a := a, b := b } = .error .divByZero)
      ∧ (coordinator N M 1 mem wmem).trace
          = [.wtime, .generateA, .generateB, .printA, .printB]
      ∧ (coordinator N M 1 mem wmem).result = .error .divByZero
      ∧ (∀ d t n, Event.send d t n ∉ (coordinator N M 1 mem wmem).trace)
      ∧ (∀ s t n, Event.recv s t n ∉ (coordinator N M 1 mem wmem).trace)
      ∧ Event.printC ∉ (coordinator N M 1 mem wmem).trace := by
  obtain ⟨a, ha, _, _⟩ := genA_ok hm.1
  obtain ⟨b, hb, _, _⟩ := genB_ok hm.2.1
  rw [coordinator_one wmem hm]
  refine ⟨⟨a, b, ha, hb, rfl⟩, rfl, rfl, ?_, ?_, ?_⟩
  · intro d t n; simp
  · intro s t n; simp
  · simp

/-- C5, witness: the shipped sizes `N = 20`, `M = 32`. -/
theorem single_process_run_witness :
    (coordinator 20 32 1 (Mem.fill 20 32 0) (fun _ => Mem.fill 20 32 0)).result
        = .error .divByZero
      ∧ Event.printC ∉ (coordinator 20 32 1 (Mem.fill 20 32 0) (fun _ => Mem.fill 20 32 0)).trace :=
  ⟨(single_process_run 20 32 (Mem.fill 20 32 0) (fun _ => Mem.fill 20 32 0)
      (Mem.fill_sized 20 32 0)).2.2.1,
    (single_process_run 20 32 (Mem.fill 20 32 0) (fun _ => Mem.fill 20 32 0)
      (Mem.fill_sized 20 32 0)).2.2.2.2.2⟩

/-- C5, counterexample: with `P = 1` (and `N = M = 2`) the run is not stopped
at startup: five actions, among them the generation and the printing of `A` and
`B`, precede the fault, and the fault is the division by zero of the partition
arithmetic, not a topology check. -/
theorem single_process_run_counterexample :
    (coordinator 2 2 1 (Mem.fill 2 2 0) (fun _ => Mem.fill 2 2 0)).trace
        = [.wtime, .generateA, .generateB, .printA, .printB]
      ∧ (coordinator 2 2 1 (Mem.fill 2 2 0) (fun _ => Mem.fill 2 2 0)).result
        = .error .divByZero
      ∧ scatter 2 2 1 (Mem.inputs 2 [1, 2, 1, 2] [1, 2, 1, 2] 0) = .error .divByZero := by
  refine ⟨by decide, by decide, by decide⟩

/-! ## C6: one worker -/

/-- C6 (as amended): for every `offset`, every `rows <= N`, every `rows x M`
block `ablk` and every `M x N` array `b` that a worker receives, lines 92-106
complete; the reply is exactly the received `offset`, the received `rows` and a
block of `rows * N` integers in row-major order; entry `(i, k)` of the block is
the sum over `j < M` of `ablk[i][j] * b[j][k]` reduced to the 32-bit range of a
C `int`, and the sum itself whenever it lies in that range. -/
theorem worker_block (N M rank : Nat) (mem : Mem) (offset : Int) (rows : Nat)
    (ablk b : List Int) (hm : mem.Sized N M) (hr : rows ≤ N)
    (hab : ablk.length = rows * M) (hb : b.length = M * N) :
    ∃ blk macs, worker N M rank mem
        [ ⟨0, rank, master_tag, [offset]⟩, ⟨0, rank, master_tag, [(rows : Int)]⟩,
          ⟨0, rank, master_tag, ablk⟩, ⟨0, rank, master_tag, b⟩ ]
        = .ok { sent := [ ⟨rank, 0, worker_tag, [offset]⟩,
                          ⟨rank, 0, worker_tag, [(rows : Int)]⟩,
                          ⟨rank, 0, worker_tag, blk⟩ ]
                macs := macs }
      ∧ blk.length = rows * N
      ∧ (∀ i k, i < rows → k < N →
          blk[i * N + k]? = some (wrapInt (matProd N M ablk b i k)))
      ∧ (∀ i k, i < rows → k < N → -2147483648 ≤ matProd N M ablk b i k →
          matProd N M ablk b i k < 2147483648 →
          blk[i * N + k]? = some (matProd N M ablk b i k)) := by
  obtain ⟨blk, hwk, hl, hp⟩ := worker_ok rank mem offset rank rank rank rank hm hr hab hb
  refine ⟨blk, _, hwk, hl, hp, ?_⟩
  intro i k hi hk h1 h2
  rw [hp i k hi hk, wrapInt_of_range h1 h2]

/-- C6, witness: worker 2 receives rows `[3,4]`, `[5,6]` of `A` at offset 1,
with `N = 3`, `M = 2`. -/
theorem worker_block_witness :
    ∃ blk macs, worker 3 2 2 (Mem.fill 3 2 8)
        [ ⟨0, 2, master_tag, [1]⟩, ⟨0, 2, master_tag, [((2 : Nat) : Int)]⟩,
          ⟨0, 2, master_tag, [3, 4, 5, 6]⟩, ⟨0, 2, master_tag, [1, 2, 3, 4, 5, 6]⟩ ]
        = .ok { sent := [ ⟨2, 0, worker_tag, [1]⟩,
                          ⟨2, 0, worker_tag, [((2 : Nat) : Int)]⟩,
                          ⟨2, 0, worker_tag, blk⟩ ]
                macs := macs }
      ∧ blk.length = 2 * 3
      ∧ (∀ i k, i < 2 → k < 3 →
          blk[i * 3 + k]? = some (wrapInt (matProd 3 2 [3, 4, 5, 6] [1, 2, 3, 4, 5, 6] i k)))
      ∧ (∀ i k, i < 2 → k < 3 →
          -2147483648 ≤ matProd 3 2 [3, 4, 5, 6] [1, 2, 3, 4, 5, 6] i k →
          matProd 3 2 [3, 4, 5, 6] [1, 2, 3, 4, 5, 6] i k < 2147483648 →
          blk[i * 3 + k]? = some (matProd 3 2 [3, 4, 5, 6] [1, 2, 3, 4, 5, 6] i k)) :=
  worker_block 3 2 2 (Mem.fill 3 2 8) 1 2 [3, 4, 5, 6] [1, 2, 3, 4, 5, 6]
    (by decide) (by decide) (by decide) (by decide)

/-- C6, counterexample: a worker that receives the `1 x 1` block `[65536]` and
`b = [65536]` replies with the block `[0]`, while the sum of products is
`2^32`. -/
theorem worker_block_counterexample :
    worker 1 1 1 (Mem.fill 1 1 9)
        [ ⟨0, 1, master_tag, [0]⟩, ⟨0, 1, master_tag, [1]⟩,
          ⟨0, 1, master_tag, [65536]⟩, ⟨0, 1, master_tag, [65536]⟩ ]
      = .ok { sent := [ ⟨1, 0, worker_tag, [0]⟩, ⟨1, 0, worker_tag, [1]⟩,
                        ⟨1, 0, worker_tag, [0]⟩ ]
              macs := 1 }
      ∧ matProd 1 1 [65536] [65536] 0 0 = 65536 * 65536
      ∧ ([0] : List Int)[0 * 1 + 0]? ≠ some (matProd 1 1 [65536] [65536] 0 0) := by
  refine ⟨by decide, by decide, by decide⟩

/-! ## C7: the scatter -/

theorem length_scatter (N M W : Nat) (a b : List Int) (n : Nat) :
    ((List.range' 1 n).flatMap (scatterMsgs N M W a b)).length = 4 * n := by
  induction n with
  | zero => rfl
  | succ n ih =>
    rw [List.range'_concat, List.flatMap_append, List.length_append, ih]
    simp [scatterMsgs]
    omega

/-- C7: for every `N`, `M`, `W >= 1` the scatter completes with `4 * W`
messages, and for every worker `j` in `1 .. W` with descriptor entry
`(off, rows)` the messages addressed to `j` are exactly four, in this order and
all from rank 0 with `master_tag`: `off`, `rows`, a block of `rows * M` integers
whose entry `(i, c)` is `A[off + i][c]` (rows `off .. off + rows` of `A`,
row-major), and all `M * N` integers of `B`: also when `rows = 0`. -/
theorem scatter_messages (N M W : Nat) (mem : Mem) (hW : 1 ≤ W) (hm : mem.Sized N M) :
    ∃ sc, scatter N M (W + 1) mem = .ok sc ∧ sc.sent.length = 4 * W
      ∧ mem.b.length = M * N
      ∧ ∀ j, 1 ≤ j → j ≤ W → ∃ off rows blk,
          (assignments N W)[j - 1]? = some (off, rows)
          ∧ inboxOf sc.sent j
            = [ ⟨0, j, master_tag, [(off : Int)]⟩, ⟨0, j, master_tag, [(rows : Int)]⟩,
                ⟨0, j, master_tag, blk⟩, ⟨0, j, master_tag, mem.b⟩ ]
          ∧ blk.length = rows * M
          ∧ ∀ i c, i < rows → c < M → blk[i * M + c]? = mem.a[(off + i) * M + c]? := by
  refine ⟨_, scatter_ok mem hW hm.1 hm.2.1, length_scatter N M W _ _ W, hm.2.1, ?_⟩
  intro j h1 h2
  have hle := range_le N W h1 h2
  refine ⟨offsetAfter N W (j - 1), rowsOf N W j, _, assignments_getElem? N W h1 h2, ?_,
    length_block hm.1 hle, fun i c hi hc => block_getElem? mem.a _ hi hc⟩
  simp only
  rw [inboxOf_flatMap, if_pos ⟨h1, h2⟩, scatterMsgs]

/-- C7, witness: `N = 4`, `M = 2`, three workers. -/
theorem scatter_messages_witness :
    ∃ sc, scatter 4 2 (3 + 1) (Mem.inputs 4 [1, 2, 3, 4, 5, 6, 7, 8] [1, 2, 3, 4, 1, 2, 3, 4] 0)
        = .ok sc ∧ sc.sent.length = 4 * 3 :=
  have h := scatter_messages 4 2 3 (Mem.inputs 4 [1, 2, 3, 4, 5, 6, 7, 8] [1, 2, 3, 4, 1, 2, 3, 4] 0)
    (by decide) (by decide)
  h.elim (fun sc hsc => ⟨sc, hsc.1, hsc.2.1⟩)

/-! ## C8: the order of the gather -/

/-- C8: for every `N`, `M`, `W >= 1`, `A` and `B`, a round whose gather takes
the workers in any order that is a permutation of `1 .. W` completes and
assembles the same array `c` as the round that takes them in rank order. -/
theorem gather_order_irrelevant (N M W : Nat) (mem : Mem) (wmem : Nat → Mem)
    (order : List Nat) (hW : 1 ≤ W) (hm : mem.Sized N M) (hw : ∀ r, (wmem r).Sized N M)
    (hperm : order.Perm (List.range' 1 W)) :
    ∃ g g', roundIn N M (W + 1) order mem wmem = .ok g
      ∧ round N M (W + 1) mem wmem = .ok g' ∧ g.c = g'.c := by
  obtain ⟨g, hg, hc, _⟩ := roundIn_all hW hm hw order (fun r => by
    rw [hperm.mem_iff, List.mem_range'_1]; omega)
  obtain ⟨g', hg', hc', _⟩ := round_ok hW hm hw
  exact ⟨g, g', hg, hg', by rw [hc, hc']⟩

/-- C8, witness: three workers gathered in the order 3, 1, 2. -/
theorem gather_order_irrelevant_witness :
    ∃ g g', roundIn 4 2 (3 + 1) [3, 1, 2]
          (Mem.inputs 4 [1, 2, 3, 4, 5, 6, 7, 8] [1, 2, 3, 4, 1, 2, 3, 4] 0)
          (fun r => Mem.fill 4 2 r) = .ok g
      ∧ round 4 2 (3 + 1) (Mem.inputs 4 [1, 2, 3, 4, 5, 6, 7, 8] [1, 2, 3, 4, 1, 2, 3, 4] 0)
          (fun r => Mem.fill 4 2 r) = .ok g'
      ∧ g.c = g'.c :=
  gather_order_irrelevant 4 2 3 (Mem.inputs 4 [1, 2, 3, 4, 5, 6, 7, 8] [1, 2, 3, 4, 1, 2, 3, 4] 0)
    (fun r => Mem.fill 4 2 r) [3, 1, 2] (by decide) (by decide)
    (fun r => Mem.fill_sized 4 2 r) (by decide)

/-! ## C9: the offsets -/

/-- C9 (as amended): for every `N` and `W >= 1`, consecutive workers satisfy
`offset[i+1] = offset[i] + rows[i]` (contiguous), so the offsets never decrease,
and `offset[i+1] > offset[i]` exactly when worker `i` has a non-zero row count;
the offsets are strictly increasing when `W <= N`; and the row counts sum to
`N`. -/
theorem partition_offsets (N W : Nat) (hW : 1 ≤ W) :
    (∀ j off rows off' rows' : Nat, (assignments N W)[j]? = some (off, rows) →
        (assignments N W)[j + 1]? = some (off', rows') →
        off' = off + rows ∧ off ≤ off' ∧ (off < off' ↔ 0 < rows))
      ∧ (W ≤ N → ∀ j off rows off' rows' : Nat, (assignments N W)[j]? = some (off, rows) →
          (assignments N W)[j + 1]? = some (off', rows') → off < off')
      ∧ ((assignments N W).map Prod.snd).sum = N := by
  have hstep : ∀ j off rows off' rows' : Nat, (assignments N W)[j]? = some (off, rows) →
      (assignments N W)[j + 1]? = some (off', rows') →
      off' = off + rows ∧ rows = rowsOf N W (j + 1) := by
    intro j off rows off' rows' hp hq
    obtain ⟨_, e1⟩ := assignments_entry hp
    obtain ⟨_, e2⟩ := assignments_entry hq
    cases e1; cases e2
    exact ⟨rfl, rfl⟩
  refine ⟨?_, ?_, ?_⟩
  · intro j off rows off' rows' hp hq
    obtain ⟨h1, _⟩ := hstep j off rows off' rows' hp hq
    omega
  · intro hWN j off rows off' rows' hp hq
    obtain ⟨h1, h2⟩ := hstep j off rows off' rows' hp hq
    have h3 := (rowsOf_bounds N W (j + 1)).1
    have h4 : 1 ≤ N / W := (Nat.one_le_div_iff (by omega)).mpr hWN
    omega
  · rw [assignments_eq, sum_rows, offsetAfter_all N W hW]

/-- C9, witness: `N = 4` rows over `W = 3` workers. -/
theorem partition_offsets_witness :
    (∀ j off rows off' rows' : Nat, (assignments 4 3)[j]? = some (off, rows) →
        (assignments 4 3)[j + 1]? = some (off', rows') →
        off' = off + rows ∧ off ≤ off' ∧ (off < off' ↔ 0 < rows))
      ∧ (3 ≤ 4 → ∀ j off rows off' rows' : Nat, (assignments 4 3)[j]? = some (off, rows) →
          (assignments 4 3)[j + 1]? = some (off', rows') → off < off')
      ∧ ((assignments 4 3).map Prod.snd).sum = 4 :=
  partition_offsets 4 3 (by decide)

/-- C9, counterexample: for `N = 1` row over `W = 3` workers the second and the
third worker both start at offset 1, so `offset[i+1] > offset[i]` fails for
this consecutive pair. -/
theorem partition_offsets_counterexample :
    ∃ off rows off' rows' : Nat, (assignments 1 3)[1]? = some (off, rows)
      ∧ (assignments 1 3)[1 + 1]? = some (off', rows') ∧ ¬ (off' > off) :=
  ⟨1, 0, 1, 0, by decide, by decide, by decide⟩

/-! ## C10: the generated inputs -/

theorem sum_emod_congr (m : Int) (f g : Nat → Int) (l : List Nat)
    (h : ∀ x, x ∈ l → f x % m = g x % m) : (l.map f).sum % m = (l.map g).sum % m := by
  induction l with
  | nil => rfl
  | cons x xs ih =>
    rw [List.map_cons, List.map_cons, List.sum_cons, List.sum_cons, Int.add_emod,
      h x (List.mem_cons_self x xs), ih (fun y hy => h y (List.mem_cons_of_mem x hy)),
      ← Int.add_emod]

theorem gauss_sum (k M : Nat) :
    2 * ((List.range M).map (fun j : Nat => ((j : Int) + 1) * ((k : Int) + 1))).sum
      = ((k : Int) + 1) * M * (M + 1) := by
  induction M with
  | zero => simp
  | succ n ih =>
    rw [List.sum_range_succ, Int.mul_add, ih]
    push_cast
    ring

theorem gauss_sum_div (k M : Nat) :
    ((List.range M).map (fun j : Nat => ((j : Int) + 1) * ((k : Int) + 1))).sum
      = ((k : Int) + 1) * M * (M + 1) / 2 := by
  rw [← gauss_sum k M, Int.mul_ediv_cancel_left _ (by decide : (2 : Int) ≠ 0)]

/-- The product entry of the generated inputs, modulo `2^32`. -/
theorem matProd_generated {N M : Nat} {a b : List Int} {i k : Nat} (hi : i < N) (hk : k < N)
    (ha : ∀ i j, i < N → j < M → a[i * M + j]? = some (addInt j 1))
    (hb : ∀ i j, i < M → j < N → b[i * N + j]? = some (addInt j 1)) :
    wrapInt (matProd N M a b i k) = wrapInt (((k : Int) + 1) * M * (M + 1) / 2) := by
  apply wrapInt_congr
  rw [← gauss_sum_div, matProd]
  apply sum_emod_congr
  intro j hj
  have hjM : j < M := List.mem_range.mp hj
  rw [List.getD_eq_getElem?_getD, List.getD_eq_getElem?_getD, ha i j hi hjM, hb j k hjM hk,
    Option.getD_some, Option.getD_some, addInt, addInt, Int.mul_emod, wrapInt_emod,
    wrapInt_emod, ← Int.mul_emod]

/-- A complete run on the generated inputs: every entry of the result is the
closed form reduced to a C `int`. -/
theorem coordinator_generated {N M W : Nat} {mem : Mem} {wmem : Nat → Mem} (hW : 1 ≤ W)
    (hm : mem.Sized N M) (hw : ∀ r, (wmem r).Sized N M) :
    ∃ C, (coordinator N M (W + 1) mem wmem).result = .ok C ∧ C.length = N * N
      ∧ ∀ i k, i < N → k < N →
          C[i * N + k]? = some (wrapInt (((k : Int) + 1) * M * (M + 1) / 2)) := by
  obtain ⟨a, b, _, _, _, _, hpa, hpb, hco⟩ := coordinator_ok hW hm hw
  refine ⟨prodFlat N M a b, by rw [hco], length_prodFlat N M a b, ?_⟩
  intro i k hi hk
  rw [getElem?_prodFlat a b hi hk, matProd_generated hi hk hpa hpb]

/-- C10 (as amended): for every `N`, `M` and `W >= 1`, the run of the coordinator
on the inputs it generates (`A[i][j] = j + 1`, `B[i][j] = j + 1`) completes and
every entry `C[i][k]` is `(k + 1) * M * (M + 1) / 2` reduced to the 32-bit range
of a C `int`, identical in every row; it is `(k + 1) * M * (M + 1) / 2` itself
whenever that value is below `2^31`; and for `N = 4`, `M = 2` every one of the
4 rows of `C` is `[3, 6, 9, 12]`. -/
theorem generated_product (N M W : Nat) (mem : Mem) (wmem : Nat → Mem) (hW : 1 ≤ W)
    (hm : mem.Sized N M) (hw : ∀ r, (wmem r).Sized N M) :
    ∃ C, (coordinator N M (W + 1) mem wmem).result = .ok C ∧ C.length = N * N
      ∧ (∀ i k, i < N → k < N →
          C[i * N + k]? = some (wrapInt (((k : Int) + 1) * M * (M + 1) / 2)))
      ∧ (∀ i k, i < N → k < N → ((k : Int) + 1) * M * (M + 1) / 2 < 2147483648 →
          C[i * N + k]? = some (((k : Int) + 1) * M * (M + 1) / 2))
      ∧ (N = 4 → M = 2 → C = [3, 6, 9, 12, 3, 6, 9, 12, 3, 6, 9, 12, 3, 6, 9, 12]) := by
  obtain ⟨C, hC, hl, hp⟩ := coordinator_generated hW hm hw
  refine ⟨C, hC, hl, hp, ?_, ?_⟩
  · intro i k hi hk h
    rw [hp i k hi hk, wrapInt_of_range _ h]
    have : (0 : Int) ≤ ((k : Int) + 1) * M * (M + 1) / 2 := by positivity
    omega
  · intro hN hM
    subst hN hM
    refine ext2 (R := 4) (C := 4) hl (by rfl) ?_
    intro i k hi hk
    rw [hp i k hi hk]
    interval_cases i <;> interval_cases k <;> rfl

/-- C10, witness: the scenario `N = 4`, `M = 2`, `W = 3`. -/
theorem generated_product_witness :
    ∃ C, (coordinator 4 2 (3 + 1) (Mem.fill 4 2 7) (fun r => Mem.fill 4 2 r)).result = .ok C
      ∧ C = [3, 6, 9, 12, 3, 6, 9, 12, 3, 6, 9, 12, 3, 6, 9, 12] :=
  have h := generated_product 4 2 3 (Mem.fill 4 2 7) (fun r => Mem.fill 4 2 r)
    (by decide) (by decide) (fun r => Mem.fill_sized 4 2 r)
  h.elim (fun C hC => ⟨C, hC.1, hC.2.2.2.2 rfl rfl⟩)

/-- C10, counterexample: for `N = 1`, `M = 65536` and one worker the closed form
`(0 + 1) * M * (M + 1) / 2` is `2147516416`, above the largest C `int`; the
entry `C[0][0]` of the run is `-2147450880`. -/
theorem generated_product_counterexample :
    (∃ C, (coordinator 1 65536 (1 + 1) (Mem.fill 1 65536 0)
          (fun _ => Mem.fill 1 65536 0)).result = .ok C
        ∧ C[0 * 1 + 0]? = some (-2147450880))
      ∧ (((0 : Nat) : Int) + 1) * (65536 : Nat) * ((65536 : Nat) + 1) / 2 = 2147516416 := by
  constructor
  · obtain ⟨C, hC, _, hp⟩ := coordinator_generated (W := 1) (by decide)
      (Mem.fill_sized 1 65536 0) (fun _ : Nat => Mem.fill_sized 1 65536 0)
    refine ⟨C, hC, ?_⟩
    rw [hp 0 0 (by decide) (by decide)]
    decide
  · decide

/-! ## C11: exact division -/

/-- C11: for every `W >= 1` and every `N` with `N % W = 0` (so `extra = 0`),
every worker `j` in `1 .. W` has the descriptor entry
`((j - 1) * (N / W), N / W)`: exactly `base = N / W` rows starting at offset
`(j - 1) * (N / W)`; and for `N = 6`, `W = 3` the counts are `(2,2,2)` and the
offsets `0, 2, 4`. -/
theorem partition_exact_division (N W : Nat) (hW : 1 ≤ W) (hdiv : N % W = 0) :
    (∀ j, 1 ≤ j → j ≤ W → (assignments N W)[j - 1]? = some ((j - 1) * (N / W), N / W))
      ∧ (assignments N W).length = W
      ∧ assignments 6 3 = [(0, 2), (2, 2), (4, 2)] := by
  have _ := hW
  refine ⟨?_, length_assignments N W, by decide⟩
  intro j h1 h2
  rw [assignments_getElem? N W h1 h2, offsetAfter_closed, rowsOf, hdiv, if_neg (by omega),
    Nat.min_zero, Nat.add_zero]

/-- C11, witness: `N = 6` rows over `W = 3` workers. -/
theorem partition_exact_division_witness :
    (∀ j, 1 ≤ j → j ≤ 3 → (assignments 6 3)[j - 1]? = some ((j - 1) * (6 / 3), 6 / 3))
      ∧ (assignments 6 3).length = 3
      ∧ assignments 6 3 = [(0, 2), (2, 2), (4, 2)] :=
  partition_exact_division 6 3 (by decide) (by decide)

/-! ## C12: the memory the program never writes -/

/-- What a worker computes and sends does not depend on what its memory held. -/
theorem worker_mem_indep {N M W : Nat} {a b : List Int} {wmem wmem' : Nat → Mem}
    (ha : a.length = N * M) (hb : b.length = M * N) (hw : ∀ r, (wmem r).Sized N M)
    (hw' : ∀ r, (wmem' r).Sized N M) {r : Nat} (h1 : 1 ≤ r) (hr : r ≤ W) :
    worker N M r (wmem r) (inboxOf ((List.range' 1 W).flatMap (scatterMsgs N M W a b)) r)
      = worker N M r (wmem' r)
          (inboxOf ((List.range' 1 W).flatMap (scatterMsgs N M W a b)) r) := by
  obtain ⟨blk, _, hwk, hl, _, hp⟩ := replies_ok ha hb hw h1 hr
  obtain ⟨blk', _, hwk', hl', _, hp'⟩ := replies_ok ha hb hw' h1 hr
  have hblk : blk = blk' := by
    apply ext2 hl hl'
    intro i k hi hk
    rw [hp i k hi hk, hp' i k hi hk]
  rw [hwk, hwk', hblk]

/-- C12: for every `N`, `M`, `W >= 1`, two runs of the round on the same `a`
and `b`, from any two initial contents of the coordinator's array `c` and
scalars and of every worker's arrays and scalars, both complete and assemble
the same array; every row of `C` lies in the range of a worker, hence is
overwritten by a reply; and every worker computes and sends the same in both
runs, whatever its memory held. -/
theorem rerun_same_result (N M W : Nat) (mem mem' : Mem) (wmem wmem' : Nat → Mem)
    (hW : 1 ≤ W) (hm : mem.Sized N M) (hm' : mem'.Sized N M)
    (ha : mem'.a = mem.a) (hb : mem'.b = mem.b)
    (hw : ∀ r, (wmem r).Sized N M) (hw' : ∀ r, (wmem' r).Sized N M) :
    (∃ C, assembled N M (W + 1) mem wmem = .ok C ∧ assembled N M (W + 1) mem' wmem' = .ok C)
      ∧ (∀ i, i < N → ∃ j off rows : Nat, j < W ∧ (assignments N W)[j]? = some (off, rows)
          ∧ off ≤ i ∧ i < off + rows)
      ∧ (∃ sc sc', scatter N M (W + 1) mem = .ok sc ∧ scatter N M (W + 1) mem' = .ok sc'
          ∧ sc'.sent = sc.sent
          ∧ ∀ r, 1 ≤ r → r ≤ W →
              worker N M r (wmem r) (inboxOf sc.sent r)
                = worker N M r (wmem' r) (inboxOf sc'.sent r)) := by
  refine ⟨⟨prodFlat N M mem.a mem.b, assembled_ok hW hm hw, ?_⟩, ?_, ?_⟩
  · rw [assembled_ok hW hm' hw', ha, hb]
  · intro i hi
    obtain ⟨j, h1, h2, h3, h4⟩ := row_covered N W hW hi
    exact ⟨j - 1, _, _, by omega, assignments_getElem? N W h1 h2, h3, h4⟩
  · refine ⟨_, _, scatter_ok mem hW hm.1 hm.2.1, scatter_ok mem' hW hm'.1 hm'.2.1, ?_, ?_⟩
    · simp only
      rw [ha, hb]
    · intro r h1 h2
      simp only
      rw [ha, hb]
      exact worker_mem_indep hm.1 hm.2.1 hw hw' h1 h2

/-- C12, witness: `N = 2`, `M = 3`, two workers, two different fillings of the
memory. -/
theorem rerun_same_result_witness :
    ∃ C, assembled 2 3 (2 + 1) (Mem.inputs 2 [1, 2, 3, 4, 5, 6] [1, 2, 3, 4, 5, 6] 7)
          (fun r => Mem.fill 2 3 r) = .ok C
      ∧ assembled 2 3 (2 + 1) (Mem.inputs 2 [1, 2, 3, 4, 5, 6] [1, 2, 3, 4, 5, 6] (-4))
          (fun r => Mem.fill 2 3 (100 - r)) = .ok C :=
  (rerun_same_result 2 3 2 (Mem.inputs 2 [1, 2, 3, 4, 5, 6] [1, 2, 3, 4, 5, 6] 7)
    (Mem.inputs 2 [1, 2, 3, 4, 5, 6] [1, 2, 3, 4, 5, 6] (-4))
    (fun r => Mem.fill 2 3 r) (fun r => Mem.fill 2 3 (100 - r))
    (by decide) (by decide) (by decide) rfl rfl
    (fun r => Mem.fill_sized 2 3 r) (fun r => Mem.fill_sized 2 3 (100 - r))).1

/-! ## Lemmas: the shape of the sequence of actions -/

theorem map_recvsOf (N W n : Nat) :
    ((List.range' 1 n).flatMap (recvsOf N W)).map (fun r => Event.recv r.1 r.2.1 r.2.2)
      = (List.range' 1 n).flatMap (recvEventsOf N W) := by
  induction n with
  | zero => rfl
  | succ n ih =>
    rw [List.range'_concat, List.flatMap_append, List.flatMap_append, List.map_append, ih]
    rfl

/-- The sequence of actions of a complete run, phase by phase. -/
theorem trace_ok {N M W : Nat} {mem : Mem} {wmem : Nat → Mem} (hW : 1 ≤ W)
    (hm : mem.Sized N M) (hw : ∀ r, (wmem r).Sized N M) :
    (coordinator N M (W + 1) mem wmem).trace
      = [.wtime, .generateA, .generateB, .printA, .printB, .partition]
          ++ (List.range' 1 W).flatMap (sendsOf N M W)
          ++ (List.range' 1 W).flatMap (recvEventsOf N W)
          ++ [.printC, .wtime, .printElapsed] := by
  obtain ⟨a, b, _, _, _, _, _, _, hco⟩ := coordinator_ok hW hm hw
  rw [hco, map_recvsOf]
  rfl

theorem length_sends (N M W n : Nat) :
    ((List.range' 1 n).flatMap (sendsOf N M W)).length = 4 * n := by
  induction n with
  | zero => rfl
  | succ n ih =>
    rw [List.range'_concat, List.flatMap_append, List.length_append, ih]
    simp [sendsOf]
    omega

theorem length_recvs (N W n : Nat) :
    ((List.range' 1 n).flatMap (recvEventsOf N W)).length = 3 * n := by
  induction n with
  | zero => rfl
  | succ n ih =>
    rw [List.range'_concat, List.flatMap_append, List.length_append, ih]
    simp [recvEventsOf]
    omega

theorem mem_sends {N M W : Nat} {l : List Nat} {e : Event}
    (h : e ∈ l.flatMap (sendsOf N M W)) : e.isSend = true ∧ e.isRecv = false := by
  obtain ⟨j, _, hj⟩ := List.mem_flatMap.mp h
  simp only [sendsOf, List.mem_cons, List.mem_singleton, List.not_mem_nil, or_false] at hj
  rcases hj with h | h | h | h <;> subst h <;> exact ⟨rfl, rfl⟩

theorem mem_recvs {N W : Nat} {l : List Nat} {e : Event}
    (h : e ∈ l.flatMap (recvEventsOf N W)) : e.isRecv = true ∧ e.isSend = false := by
  obtain ⟨j, _, hj⟩ := List.mem_flatMap.mp h
  simp only [recvEventsOf, List.mem_cons, List.mem_singleton, List.not_mem_nil, or_false] at hj
  rcases hj with h | h | h <;> subst h <;> exact ⟨rfl, rfl⟩

/-- In a sequence that splits into a part without receives followed by a part
without sends, no receive is followed by a send. -/
theorem no_send_after_recv {l₁ l₂ : List Event} (h₁ : ∀ e, e ∈ l₁ → e.isRecv = false)
    (h₂ : ∀ e, e ∈ l₂ → e.isSend = false) (i j : Nat) (e e' : Event) (hij : i < j)
    (hi : (l₁ ++ l₂)[i]? = some e) (hj : (l₁ ++ l₂)[j]? = some e') (he : e.isRecv = true) :
    e'.isSend = false := by
  have hi2 : l₁.length ≤ i := by
    by_contra hlt
    rw [List.getElem?_append_left (by omega)] at hi
    have := h₁ e (List.getElem?_mem hi)
    rw [he] at this
    exact Bool.noConfusion this
  rw [List.getElem?_append_right (by omega)] at hj
  exact h₂ e' (List.getElem?_mem hj)

theorem commActions_trace (N M W : Nat) :
    commActions ([.wtime, .generateA, .generateB, .printA, .printB, .partition]
          ++ (List.range' 1 W).flatMap (sendsOf N M W)
          ++ (List.range' 1 W).flatMap (recvEventsOf N W)
          ++ [.printC, .wtime, .printElapsed])
      = (List.range' 1 W).flatMap (sendsOf N M W)
          ++ (List.range' 1 W).flatMap (recvEventsOf N W) := by
  unfold commActions
  rw [List.filter_append, List.filter_append, List.filter_append]
  have h1 : ((List.range' 1 W).flatMap (sendsOf N M W)).filter
      (fun e => e.isSend || e.isRecv) = (List.range' 1 W).flatMap (sendsOf N M W) := by
    apply List.filter_eq_self.mpr
    intro e he
    rw [(mem_sends he).1]
    rfl
  have h2 : ((List.range' 1 W).flatMap (recvEventsOf N W)).filter
      (fun e => e.isSend || e.isRecv) = (List.range' 1 W).flatMap (recvEventsOf N W) := by
    apply List.filter_eq_self.mpr
    intro e he
    rw [(mem_recvs he).1, (mem_recvs he).2]
    rfl
  rw [h1, h2]
  simp [Event.isSend, Event.isRecv]

/-! ## C13: the scatter ends before the gather begins -/

/-- C13: for every `W >= 1` (and every `N`, `M`), the communication actions of
the coordinator are, in order, the four sends to worker 1, ..., the four sends
to worker `W` (`4 * W` sends), followed by the three receives from worker 1,
..., the three receives from worker `W` (`3 * W` receives); and in the whole
sequence of actions no receive is followed by a send, so every send comes
before the first receive. -/
theorem scatter_before_gather (N M W : Nat) (mem : Mem) (wmem : Nat → Mem) (hW : 1 ≤ W)
    (hm : mem.Sized N M) (hw : ∀ r, (wmem r).Sized N M) :
    commActions (coordinator N M (W + 1) mem wmem).trace
        = (List.range' 1 W).flatMap (sendsOf N M W)
          ++ (List.range' 1 W).flatMap (recvEventsOf N W)
      ∧ ((List.range' 1 W).flatMap (sendsOf N M W)).length = 4 * W
      ∧ ((List.range' 1 W).flatMap (recvEventsOf N W)).length = 3 * W
      ∧ (∀ e, e ∈ (List.range' 1 W).flatMap (sendsOf N M W) → e.isSend = true)
      ∧ (∀ e, e ∈ (List.range' 1 W).flatMap (recvEventsOf N W) → e.isRecv = true)
      ∧ (∀ (i j : Nat) (e e' : Event), i < j →
          (coordinator N M (W + 1) mem wmem).trace[i]? = some e →
          (coordinator N M (W + 1) mem wmem).trace[j]? = some e' →
          e.isRecv = true → e'.isSend = false) := by
  rw [trace_ok hW hm hw]
  refine ⟨commActions_trace N M W, length_sends N M W W, length_recvs N W W,
    fun e he => (mem_sends he).1, fun e he => (mem_recvs he).1, ?_⟩
  intro i j e e' hij hi hj he
  rw [List.append_assoc] at hi hj
  refine no_send_after_recv ?_ ?_ i j e e' hij hi hj he
  · intro x hx
    rcases List.mem_append.mp hx with h | h
    · simp only [List.mem_cons, List.mem_singleton, List.not_mem_nil, or_false] at h
      rcases h with h | h | h | h | h | h <;> subst h <;> rfl
    · exact (mem_sends h).2
  · intro x hx
    rcases List.mem_append.mp hx with h | h
    · exact (mem_recvs h).2
    · simp only [List.mem_cons, List.mem_singleton, List.not_mem_nil, or_false] at h
      rcases h with h | h | h <;> subst h <;> rfl

/-- C13, witness: `N = 4`, `M = 2`, three workers. -/
theorem scatter_before_gather_witness :
    commActions (coordinator 4 2 (3 + 1) (Mem.fill 4 2 7) (fun r => Mem.fill 4 2 r)).trace
        = (List.range' 1 3).flatMap (sendsOf 4 2 3)
          ++ (List.range' 1 3).flatMap (recvEventsOf 4 3)
      ∧ ((List.range' 1 3).flatMap (sendsOf 4 2 3)).length = 4 * 3
      ∧ ((List.range' 1 3).flatMap (recvEventsOf 4 3)).length = 3 * 3 :=
  have h := scatter_before_gather 4 2 3 (Mem.fill 4 2 7) (fun r => Mem.fill 4 2 r)
    (by decide) (by decide) (fun r => Mem.fill_sized 4 2 r)
  ⟨h.1, h.2.1, h.2.2.1⟩

/-! ## C14: what the reported time spans -/

/-- C14 (as amended): in every run with `W >= 1` workers the start clock read
is the first action of the coordinator; the generation of `A` and of `B` and
the printing of `A` and of `B` follow it and precede the partition
computation; then come the communication actions of the round, ending with the
last gather receive; the printing of `C` follows the last receive and precedes
the end clock read; the elapsed time is printed last.  The reported time
therefore spans the generation, the printing of `A`, `B` and `C` and the
round. -/
theorem timed_interval (N M W : Nat) (mem : Mem) (wmem : Nat → Mem) (hW : 1 ≤ W)
    (hm : mem.Sized N M) (hw : ∀ r, (wmem r).Sized N M) :
    ∃ comm, (coordinator N M (W + 1) mem wmem).trace
        = [.wtime, .generateA, .generateB, .printA, .printB, .partition] ++ comm
          ++ [.printC, .wtime, .printElapsed]
      ∧ (∀ e, e ∈ comm → e.isSend = true ∨ e.isRecv = true)
      ∧ comm.getLast? = some (.recv W worker_tag (rowsOf N W W * N)) := by
  refine ⟨(List.range' 1 W).flatMap (sendsOf N M W)
      ++ (List.range' 1 W).flatMap (recvEventsOf N W), ?_, ?_, ?_⟩
  · rw [trace_ok hW hm hw, List.append_assoc, List.append_assoc, List.append_assoc,
      List.append_assoc]
  · intro e he
    rcases List.mem_append.mp he with h | h
    · exact Or.inl (mem_sends h).1
    · exact Or.inr (mem_recvs h).1
  · obtain ⟨n, rfl⟩ : ∃ n, W = n + 1 := ⟨W - 1, by omega⟩
    rw [List.range'_concat, List.flatMap_append, List.flatMap_append, ← List.append_assoc]
    simp [recvEventsOf, Nat.add_comm]

/-- C14, witness: `N = 2`, `M = 1`, one worker. -/
theorem timed_interval_witness :
    ∃ comm, (coordinator 2 1 (1 + 1) (Mem.fill 2 1 0) (fun _ => Mem.fill 2 1 0)).trace
        = [.wtime, .generateA, .generateB, .printA, .printB, .partition] ++ comm
          ++ [.printC, .wtime, .printElapsed] :=
  have h := timed_interval 2 1 1 (Mem.fill 2 1 0) (fun _ => Mem.fill 2 1 0)
    (by decide) (by decide) (fun _ => Mem.fill_sized 2 1 0)
  h.elim (fun comm hc => ⟨comm, hc.1⟩)

/-- C14, counterexample: in the run with `N = 2`, `M = 1` and one worker the
start clock read is action 0, the generation of `A` is action 1 and the
partition computation is action 5, so input generation lies between the start
clock read and the partition; the last gather receive is action 12, the
printing of `C` action 13 and the end clock read action 14, so the printing of
`C` lies between the last receive and the end clock read. -/
theorem timed_interval_counterexample :
    (coordinator 2 1 (1 + 1) (Mem.fill 2 1 0) (fun _ => Mem.fill 2 1 0)).trace
        = [.wtime, .generateA, .generateB, .printA, .printB, .partition,
            .send 1 master_tag 1, .send 1 master_tag 1, .send 1 master_tag 2,
            .send 1 master_tag 2,
            .recv 1 worker_tag 1, .recv 1 worker_tag 1, .recv 1 worker_tag 4,
            .printC, .wtime, .printElapsed]
      ∧ (coordinator 2 1 (1 + 1) (Mem.fill 2 1 0) (fun _ => Mem.fill 2 1 0)).trace[0]?
          = some .wtime
      ∧ (coordinator 2 1 (1 + 1) (Mem.fill 2 1 0) (fun _ => Mem.fill 2 1 0)).trace[1]?
          = some .generateA
      ∧ (coordinator 2 1 (1 + 1) (Mem.fill 2 1 0) (fun _ => Mem.fill 2 1 0)).trace[5]?
          = some .partition
      ∧ (coordinator 2 1 (1 + 1) (Mem.fill 2 1 0) (fun _ => Mem.fill 2 1 0)).trace[12]?
          = some (.recv 1 worker_tag 4)
      ∧ (coordinator 2 1 (1 + 1) (Mem.fill 2 1 0) (fun _ => Mem.fill 2 1 0)).trace[13]?
          = some .printC
      ∧ (coordinator 2 1 (1 + 1) (Mem.fill 2 1 0) (fun _ => Mem.fill 2 1 0)).trace[14]?
          = some .wtime := by
  refine ⟨by decide, by decide, by decide, by decide, by decide, by decide, by decide⟩

/-! ## C15: every access is inside its array -/

/-- C15: for every `N`, `M` and `W >= 1`, with arrays of the declared sizes:
every descriptor entry `(off, rows)` has `off + rows <= N`, so the `rows * M`
integers read from `A` at row `off` lie inside `A` (the checked read succeeds)
and the `rows * N` integers written at row `off` lie inside `C`; the scatter
completes and every worker `1 .. W` completes lines 92-106 without a fault; the
kernel on `rows <= N` rows never takes the out-of-bounds branch of a checked
access; and the whole round, gather included, completes without a fault. -/
theorem accesses_in_bounds (N M W : Nat) (mem : Mem) (wmem : Nat → Mem) (hW : 1 ≤ W)
    (hm : mem.Sized N M) (hw : ∀ r, (wmem r).Sized N M) :
    (∀ j off rows : Nat, (assignments N W)[j]? = some (off, rows) →
        off + rows ≤ N ∧ off * M + rows * M ≤ mem.a.length
          ∧ off * N + rows * N ≤ mem.c.length
          ∧ ∃ blk, sendFrom mem.a (off * M) (rows * M) = .ok blk)
      ∧ (∃ sc, scatter N M (W + 1) mem = .ok sc
          ∧ ∀ j, 1 ≤ j → j ≤ W → ∃ w, worker N M j (wmem j) (inboxOf sc.sent j) = .ok w)
      ∧ (∀ (rows : Nat) (a b c0 : List Int), rows ≤ N → a.length = N * M →
          b.length = M * N → c0.length = N * N → ∃ r, kernel N M rows a b c0 = .ok r)
      ∧ (∃ g, round N M (W + 1) mem wmem = .ok g) := by
  refine ⟨?_, ?_, ?_, ?_⟩
  · intro j off rows hp
    obtain ⟨hj, e⟩ := assignments_entry hp
    cases e
    have hle : offsetAfter N W j + rowsOf N W (j + 1) ≤ N := by
      simpa using range_le N W (show 1 ≤ j + 1 by omega) (show j + 1 ≤ W by omega)
    have h1 : offsetAfter N W j * M + rowsOf N W (j + 1) * M ≤ mem.a.length := by
      rw [hm.1, ← Nat.add_mul]
      exact Nat.mul_le_mul_right M hle
    have h2 : offsetAfter N W j * N + rowsOf N W (j + 1) * N ≤ mem.c.length := by
      rw [hm.2.2, ← Nat.add_mul]
      exact Nat.mul_le_mul_right N hle
    exact ⟨hle, h1, h2, _, sendFrom_ok h1⟩
  · refine ⟨_, scatter_ok mem hW hm.1 hm.2.1, ?_⟩
    intro j h1 h2
    obtain ⟨blk, _, hwk, _⟩ := replies_ok hm.1 hm.2.1 hw h1 h2
    exact ⟨_, hwk⟩
  · intro rows a b c0 hr ha hb hc
    obtain ⟨c', hk, _⟩ := kernel_ok rows ha hb hc hr
    exact ⟨_, hk⟩
  · obtain ⟨g, hg, _⟩ := round_ok hW hm hw
    exact ⟨g, hg⟩

/-- C15, witness: `N = 4`, `M = 2`, three workers. -/
theorem accesses_in_bounds_witness :
    ∃ g, round 4 2 (3 + 1) (Mem.inputs 4 [1, 2, 3, 4, 5, 6, 7, 8] [1, 2, 3, 4, 1, 2, 3, 4] 0)
      (fun r => Mem.fill 4 2 r) = .ok g :=
  (accesses_in_bounds 4 2 3 (Mem.inputs 4 [1, 2, 3, 4, 5, 6, 7, 8] [1, 2, 3, 4, 1, 2, 3, 4] 0)
    (fun r => Mem.fill 4 2 r) (by decide) (by decide) (fun r => Mem.fill_sized 4 2 r)).2.2.2

/-! ## C16: the running offset in closed form -/

theorem head_inboxOf (N M W : Nat) (a b : List Int) {j : Nat} (h1 : 1 ≤ j) (hj : j ≤ W) :
    (inboxOf ((List.range' 1 W).flatMap (scatterMsgs N M W a b)) j).head?
      = some ⟨0, j, master_tag, [(offsetAfter N W (j - 1) : Int)]⟩ := by
  rw [inboxOf_flatMap, if_pos ⟨h1, hj⟩]
  rfl

/-- C16: for every `N`, `W >= 1` and worker `j` in `1 .. W`, the offset that
the partition loop holds when it reaches worker `j` (the offset of the
descriptor entry of `j`, which is also the first message the scatter loop
sends to `j`) is `(j - 1) * (N / W) + min (j - 1) (N % W)`, and the value of
`offset` after the last iteration is `N`, in the loop with the sends left out
and in the scatter loop itself. -/
theorem offset_closed_form (N W : Nat) (hW : 1 ≤ W) :
    (∀ j, 1 ≤ j → j ≤ W → ∃ rows, (assignments N W)[j - 1]?
        = some ((j - 1) * (N / W) + min (j - 1) (N % W), rows))
      ∧ (partitionLoop N W).1 = N
      ∧ (∀ (M : Nat) (mem : Mem), mem.Sized N M →
          ∃ sc, scatter N M (W + 1) mem = .ok sc ∧ sc.offset = N
            ∧ ∀ j, 1 ≤ j → j ≤ W → (inboxOf sc.sent j).head?
                = some ⟨0, j, master_tag,
                    [(((j - 1) * (N / W) + min (j - 1) (N % W) : Nat) : Int)]⟩) := by
  refine ⟨?_, ?_, ?_⟩
  · intro j h1 h2
    refine ⟨rowsOf N W j, ?_⟩
    rw [assignments_getElem? N W h1 h2, offsetAfter_closed]
  · rw [partitionLoop_eq, offsetAfter_all N W hW]
  · intro M mem hm
    refine ⟨_, scatter_ok mem hW hm.1 hm.2.1, rfl, ?_⟩
    intro j h1 h2
    simp only
    rw [head_inboxOf N M W _ _ h1 h2, offsetAfter_closed]

/-- C16, witness: `N = 7` rows over `W = 3` workers. -/
theorem offset_closed_form_witness :
    (∀ j, 1 ≤ j → j ≤ 3 → ∃ rows, (assignments 7 3)[j - 1]?
        = some ((j - 1) * (7 / 3) + min (j - 1) (7 % 3), rows))
      ∧ (partitionLoop 7 3).1 = 7 :=
  ⟨(offset_closed_form 7 3 (by decide)).1, (offset_closed_form 7 3 (by decide)).2.1⟩

end MatMul
